import Mathlib

/-!
Verification of the from-scratch numerical library in
`Data-Analysis-And-Mining/src/algorithms.py`.

The Python source works on numpy float arrays.  The shallow embedding below
models floating-point numbers as exact rationals (`ℚ`), and the standard
scaler (whose fitted statistic is a square root) over the reals (`ℝ`).
Matrices (`np.ndarray` of shape N x D) become `List (List ℚ)` of rows,
per-column statistics become functions over column indices, and numpy's
in-place mutation of instance fields becomes explicit state passing.
Randomized parts (`np.random.choice`, `np.random.permutation`) are external
inputs of the functions under study and are modelled as explicit parameters.

Throughout, `np.argmin`/`np.argmax` return the first index attaining the
extremum, which the embeddings reproduce with strict-inequality folds, and
comparisons of Euclidean norms are modelled by comparisons of squared
distances (x ↦ Real.sqrt x is strictly monotone on nonnegatives, so argmin,
min, max and order ties are unchanged).
-/

/-- Squared Euclidean distance between two feature rows
(`np.linalg.norm(u - v)` squared; the source compares norms, and squaring
preserves every comparison made on them). -/
def sqDistL (u v : List ℚ) : ℚ :=
  ((u.zip v).map (fun p => (p.1 - p.2) ^ 2)).sum

/-- First index of the minimum of a list (`np.argmin`): the fold keeps the
current best unless a strictly smaller value appears. -/
def argminIdx (ds : List ℚ) : ℕ :=
  (ds.enum.foldl
    (fun best p => if p.2 < best.1 then (p.2, p.1) else best)
    (ds.headD 0, 0)).2

/-- First index of the maximum of a list (`np.argmax`). -/
def argmaxIdx (ds : List ℚ) : ℕ :=
  (ds.enum.foldl
    (fun best p => if best.1 < p.2 then (p.2, p.1) else best)
    (ds.headD 0, 0)).2

/-- `np.min` over a nonempty list (0 on the empty list, which the source
never queries). -/
def listMin (ds : List ℚ) : ℚ :=
  match ds with
  | [] => 0
  | x :: xs => xs.foldl min x

/-- `np.max` over a nonempty list (0 on the empty list). -/
def listMax (ds : List ℚ) : ℚ :=
  match ds with
  | [] => 0
  | x :: xs => xs.foldl max x

/-- Per-column mean of a collection of rows (`np.mean(rows, axis=0)`,
single column `f`). -/
def colMean (rows : List (List ℚ)) (f : ℕ) : ℚ :=
  ((rows.map (fun r => r.getD f 0)).sum) / rows.length

/-- Mean vector of a collection of rows (`rows.mean(axis=0)`). -/
def meanVec (rows : List (List ℚ)) (d : ℕ) : List ℚ :=
  (List.range d).map (colMean rows)

/-- Per-column population variance (`np.var(rows, axis=0)`, numpy's default
`ddof=0`). -/
def colVar (rows : List (List ℚ)) (f : ℕ) : ℚ :=
  ((rows.map (fun r => (r.getD f 0 - colMean rows f) ^ 2)).sum) / rows.length

/-- Variance vector of a collection of rows (`rows.var(axis=0)`). -/
def varVec (rows : List (List ℚ)) (d : ℕ) : List ℚ :=
  (List.range d).map (colVar rows)

/-- `np.unique`: the sorted list of distinct values (insertion sort is used
so that the definition reduces by structural recursion). -/
def uniqueSorted (y : List ℚ) : List ℚ :=
  List.insertionSort (· ≤ ·) y.dedup

/- ### GaussianNaiveBayes (src/algorithms.py lines 405-452) -/

/-- Fitted state of `GaussianNaiveBayes`: `self.classes`, `self.mean`,
`self.var`, `self.priors` (one row per class). -/
structure GNBModel where
  classes : List ℚ
  mean : List (List ℚ)
  var : List (List ℚ)
  priors : List ℚ
deriving DecidableEq, Repr

/-- The epsilon of `GaussianNaiveBayes._pdf` (the decimal literal `1e-9`). -/
def gnbEps : ℚ := 1 / 1000000000

/-- `GaussianNaiveBayes.fit(X, y)` (lines 412-427): per observed class,
per-feature mean and population variance over that class's rows, and the
class prior `|rows of class| / n_samples`.  `d` is `X.shape[1]`. -/
def gnbFit (X : List (List ℚ)) (y : List ℚ) (d : ℕ) : GNBModel :=
  let cs := uniqueSorted y
  let classRows : ℚ → List (List ℚ) := fun c =>
    ((X.zip y).filter (fun p => decide (p.2 = c))).map Prod.fst
  { classes := cs
    mean := cs.map (fun c => meanVec (classRows c) d)
    var := cs.map (fun c => varVec (classRows c) d)
    priors := cs.map (fun c => ((classRows c).length : ℚ) / (X.length : ℚ)) }

/-- State effect of one `_pdf(class_idx, x)` call (lines 445-452): the line
`var += 1e-9` operates on `var = self.var[class_idx]`, a numpy **view** of
the stored variance row, so it adds `1e-9` in place to every entry of that
row of `self.var`.  The probability values subsequently computed from `x`
do not touch the fitted state, so they are not part of the state model. -/
def gnbPdfBump (m : GNBModel) (classIdx : ℕ) : GNBModel :=
  { m with var := m.var.modify (fun row => row.map (· + gnbEps)) classIdx }

/-- State effect of `_predict(x)` (lines 434-443): `_pdf` is called once for
every class index in order. -/
def gnbPredictRowBump (m : GNBModel) : GNBModel :=
  (List.range m.classes.length).foldl gnbPdfBump m

/-- State effect of `predict(X)` (lines 429-432) on a query matrix with
`q` rows: `_predict` runs once per row. -/
def gnbPredictBump (m : GNBModel) (q : ℕ) : GNBModel :=
  (List.range q).foldl (fun s _ => gnbPredictRowBump s) m

/-- C1: the claim says `predict` leaves the fitted state unchanged and that
the `1e-9` epsilon is never accumulated into the stored variance.  The code
violates this: `var += 1e-9` in `_pdf` mutates the stored `self.var` row in
place (numpy view aliasing), so after fitting on X = [[1],[2]], y = [0,1]
(fitted variance [[0],[0]]) a single-row `predict` call leaves the variance
at [[1e-9],[1e-9]], and a second call at [[2e-9],[2e-9]], while means,
priors and classes are indeed untouched. -/
theorem gnb_predict_mutates_fitted_variance :
    (gnbPredictBump (gnbFit [[1], [2]] [0, 1] 1) 1).var ≠ (gnbFit [[1], [2]] [0, 1] 1).var ∧
    (gnbPredictBump (gnbFit [[1], [2]] [0, 1] 1) 1).mean = (gnbFit [[1], [2]] [0, 1] 1).mean ∧
    (gnbPredictBump (gnbFit [[1], [2]] [0, 1] 1) 1).priors = (gnbFit [[1], [2]] [0, 1] 1).priors ∧
    (gnbPredictBump (gnbFit [[1], [2]] [0, 1] 1) 1).classes = (gnbFit [[1], [2]] [0, 1] 1).classes ∧
    (gnbFit [[1], [2]] [0, 1] 1).var = [[0], [0]] ∧
    (gnbPredictBump (gnbFit [[1], [2]] [0, 1] 1) 1).var = [[gnbEps], [gnbEps]] ∧
    (gnbPredictBump (gnbPredictBump (gnbFit [[1], [2]] [0, 1] 1) 1) 1).var
      = [[2 * gnbEps], [2 * gnbEps]] := by
  norm_num [gnbPredictBump, gnbPredictRowBump, gnbPdfBump, gnbFit, uniqueSorted,
    meanVec, varVec, colMean, colVar, gnbEps, List.range_succ]

/- ### SimpleImputer (src/algorithms.py lines 297-319) -/

/-- Missing values (`np.nan`) are modelled as `none`. -/
abbrev Cell := Option ℚ

/-- `np.nanmean` of one column: mean of the present entries. -/
def nanColMean (X : List (List Cell)) (f : ℕ) : ℚ :=
  let present := (X.map (fun r => r.getD f none)).filterMap id
  present.sum / present.length

/-- `np.nanmedian` of one column: middle of the sorted present entries, or
the average of the two middles for an even count. -/
def nanColMedian (X : List (List Cell)) (f : ℕ) : ℚ :=
  let present := (X.map (fun r => r.getD f none)).filterMap id
  let sorted := List.insertionSort (· ≤ ·) present
  if sorted.length % 2 = 1 then sorted.getD (sorted.length / 2) 0
  else (sorted.getD (sorted.length / 2 - 1) 0 + sorted.getD (sorted.length / 2) 0) / 2

/-- Fitted state of `SimpleImputer`: the `strategy` string and `self.stats_`
(`None` before `fit` and after a `fit` with an unrecognized strategy). -/
structure ImputerState where
  strategy : String
  stats : Option (List ℚ)
deriving DecidableEq, Repr

/-- `SimpleImputer.fit(X)` (lines 302-308): sets `stats_` for the `mean`
and `median` strategies; for any other strategy the `if`/`elif` chain
falls through, no exception is raised, and `stats_` is left as `None`. -/
def imputerFit (strategy : String) (X : List (List Cell)) (d : ℕ) : ImputerState :=
  if strategy = "mean" then ⟨strategy, some ((List.range d).map (nanColMean X))⟩
  else if strategy = "median" then ⟨strategy, some ((List.range d).map (nanColMedian X))⟩
  else ⟨strategy, none⟩

/-- `SimpleImputer.transform(X)` (lines 310-316): fills exactly the missing
cells of column `i` with `stats_[i]`.  When `stats_` is `None` (unknown
strategy) the subscript `self.stats_[i]` fails with a `TypeError` on the
first column that has a missing entry; with no missing entries the loop
never subscripts `stats_` and the copy is returned. -/
def imputerTransform (s : ImputerState) (X : List (List Cell)) :
    Except String (List (List Cell)) :=
  match s.stats with
  | some st =>
      .ok (X.map (fun r => r.enum.map (fun p =>
        match p.2 with
        | some v => some v
        | none => some (st.getD p.1 0))))
  | none =>
      if X.any (fun r => r.any (fun c => c.isNone)) then
        .error "TypeError: NoneType object is not subscriptable"
      else .ok X

/-- C7: the claim says an unknown imputation strategy fails fast with a
descriptive error.  The code instead silently returns a fitted-looking
imputer whose `stats_` is `None`; the failure only surfaces later, as an
unrelated `TypeError`, when `transform` meets a missing cell (and not at
all when the data has no missing cells).  The valid strategies do behave
as claimed, illustrated on the `mean` strategy. -/
theorem imputer_unknown_strategy_silently_ignored :
    imputerFit "most_frequent" [[some 1]] 1 = ⟨"most_frequent", none⟩ ∧
    imputerTransform (imputerFit "most_frequent" [[some 1]] 1) [[none]]
      = .error "TypeError: NoneType object is not subscriptable" ∧
    imputerTransform (imputerFit "most_frequent" [[some 1]] 1) [[some 7]] = .ok [[some 7]] ∧
    imputerFit "mean" [[some 1], [none], [some 3]] 1 = ⟨"mean", some [2]⟩ ∧
    imputerTransform (imputerFit "mean" [[some 1], [none], [some 3]] 1)
        [[some 1], [none], [some 3]] = .ok [[some 1], [some 2], [some 3]] := by
  refine ⟨?_, ?_, ?_, ?_, ?_⟩ <;>
    simp [imputerFit, imputerTransform, nanColMean, List.range_succ,
      List.enum, List.enumFrom] <;> norm_num

/- ### MinMaxScaler (lines 322-339) and StandardScaler (lines 342-357) -/

/-- `MinMaxScaler.fit` on one column: `range_ = max - min`, with a zero
range replaced by `1.0` (line 332).  The scalers treat columns
independently, so the embedding works column-wise. -/
def minMaxRange (xs : List ℚ) : ℚ :=
  if listMax xs - listMin xs = 0 then 1 else listMax xs - listMin xs

/-- `MinMaxScaler.fit(X).transform(X)` on one training column:
`(x - min_) / range_`. -/
def minMaxFitTransform (xs : List ℚ) : List ℚ :=
  xs.map (fun x => (x - listMin xs) / minMaxRange xs)

/-- Mean of one real column (`np.mean(X, axis=0)`). -/
noncomputable def realColMean (xs : List ℝ) : ℝ := xs.sum / xs.length

/-- Population variance of one real column (`np.var`; `np.std` is its
square root). -/
noncomputable def realColVar (xs : List ℝ) : ℝ :=
  ((xs.map (fun x => (x - realColMean xs) ^ 2)).sum) / xs.length

/-- `StandardScaler.fit` on one column: `std_ = np.std(X, axis=0)`, with a
zero standard deviation replaced by `1.0` (line 350).  The square root
forces this part of the embedding into `ℝ`. -/
noncomputable def stdScalerStd (xs : List ℝ) : ℝ :=
  if Real.sqrt (realColVar xs) = 0 then 1 else Real.sqrt (realColVar xs)

/-- `StandardScaler.fit(X).transform(X)` on one training column:
`(x - mean_) / std_`. -/
noncomputable def stdScalerFitTransform (xs : List ℝ) : List ℝ :=
  xs.map (fun x => (x - realColMean xs) / stdScalerStd xs)

/-- C2 counterexample: the claim says that on a zero-range column the
transformed output equals the original column values.  On the constant
column [5, 5] (range 0) `MinMaxScaler` produces [0, 0], not [5, 5]: the
substituted denominator 1.0 makes the output `x - min_`, which is 0 on a
constant column, not the original value. -/
theorem minmax_zero_range_not_identity :
    listMax [(5 : ℚ), 5] - listMin [(5 : ℚ), 5] = 0 ∧
    minMaxFitTransform [5, 5] = [0, 0] ∧
    minMaxFitTransform [5, 5] ≠ [5, 5] := by
  norm_num [minMaxFitTransform, minMaxRange, listMax, listMin]

/- ### train_test_split (lines 362-373) -/

/-- The number of test rows: `int(n_samples * test_size)` (line 367).
Python's `int()` truncates toward zero; for the nonnegative products in
scope this is the floor — it is **not** `round`. -/
def nTestOf (n : ℕ) (ts : ℚ) : ℕ := (⌊(n : ℚ) * ts⌋).toNat

/-- `train_test_split(X, y, test_size)` (lines 362-373) given the
permutation of row indices produced by the (seeded) generator: the first
`n_test` permuted indices are the test rows, the rest are the train rows,
and both `X` and `y` are fancy-indexed by the same index lists.  Returns
`(X_train, X_test, y_train, y_test)`. -/
def trainTestSplit (X y : List ℚ) (ts : ℚ) (perm : List ℕ) :
    List ℚ × List ℚ × List ℚ × List ℚ :=
  let nTest := nTestOf X.length ts
  let testIdx := perm.take nTest
  let trainIdx := perm.drop nTest
  (trainIdx.map (fun i => X.getD i 0), testIdx.map (fun i => X.getD i 0),
   trainIdx.map (fun i => y.getD i 0), testIdx.map (fun i => y.getD i 0))

/-- One step of a linear congruential generator (Numerical Recipes
constants), used only by the model permutation below. -/
def lcgNext (s : ℕ) : ℕ := (1664525 * s + 1013904223) % 4294967296

/-- Repeated seeded extraction producing a permutation of the input list. -/
def modelShuffle : ℕ → ℕ → List ℕ → List ℕ
  | _, 0, _ => []
  | s, fuel + 1, l =>
      if l.isEmpty then []
      else l.getD (s % l.length) 0 ::
        modelShuffle (lcgNext s) fuel (l.eraseIdx (s % l.length))

/-- Modelled from the spec: `np.random.seed(random_state)` followed by
`np.random.permutation(n_samples)` (lines 363-368) — the seeded global
numpy generator is outside this repository, and per the spec it
"deterministically seeds the permutation generator" and "produces a random
permutation of row indices".  Any fixed function of `(seed, n)` returning
a permutation of `range n` realizes that; this one shuffles with an LCG. -/
def modelPermutation (seed n : ℕ) : List ℕ :=
  modelShuffle (lcgNext seed) n (List.range n)

/-- C3 counterexample: the claim says the test set has exactly
`round(N * test_size)` rows.  With N = 3 rows and `test_size = 1/2` the
code computes `int(3 * 0.5) = 1` test row, while `round(1.5) = 2`. -/
theorem train_test_split_truncates_not_rounds :
    (trainTestSplit [10, 20, 30] [0, 1, 2] (1 / 2) [0, 1, 2]).2.1.length = 1 ∧
    round ((3 : ℚ) * (1 / 2)) = 2 ∧
    ((trainTestSplit [10, 20, 30] [0, 1, 2] (1 / 2) [0, 1, 2]).2.1.length : ℤ)
      ≠ round ((3 : ℚ) * (1 / 2)) := by
  norm_num [trainTestSplit, nTestOf, round_eq]

/- ### KMeans (src/algorithms.py lines 3-39) -/

/-- Assignment step (lines 19-20): each sample goes to the centroid of
minimal Euclidean distance, first index on ties (`np.argmin(..., axis=1)`;
compared through squared distances). -/
def kmeansAssign (X C : List (List ℚ)) : List ℕ :=
  X.map (fun x => argminIdx (C.map (fun c => sqDistL x c)))

/-- Update step (lines 22-28): each centroid becomes the mean of its
assigned samples; a cluster with no samples is reseeded to the row
`X[np.random.choice(n_samples)]`, the random draw being the external
parameter `reseed`. -/
def kmeansUpdate (X : List (List ℚ)) (k d : ℕ) (L : List ℕ) (reseed : ℕ → ℕ) :
    List (List ℚ) :=
  (List.range k).map (fun i =>
    let members := ((X.zip L).filter (fun p => decide (p.2 = i))).map Prod.fst
    if members.isEmpty then X.getD (reseed i) [] else meanVec members d)

/-- Convergence test (line 30): `np.all(np.abs(new_centroids - self.centroids) < tol)`. -/
def centroidsClose (Cnew Cold : List (List ℚ)) (tol : ℚ) : Bool :=
  (Cnew.zip Cold).all (fun p =>
    (p.1.zip p.2).all (fun q => decide (|q.1 - q.2| < tol)))

/-- The `for _ in range(self.max_iters)` loop of `KMeans.fit` (lines
18-36), iterating over the list of remaining iteration indices: assign,
update, stop early on convergence, and return the labels of the last
executed assignment.  An empty iteration list means `max_iters == 0`, in
which case the source returns its initial `self.labels = None`, modelled
as `[]`. -/
def kmeansLoop (X : List (List ℚ)) (k d : ℕ) (tol : ℚ) (reseed : ℕ → ℕ → ℕ) :
    List ℕ → List (List ℚ) → List ℕ
  | [], _ => []
  | it :: rest, C =>
      let L := kmeansAssign X C
      let Cnew := kmeansUpdate X k d L (reseed it)
      if centroidsClose Cnew C tol then L
      else if rest.isEmpty then L
      else kmeansLoop X k d tol reseed rest Cnew

/-- `KMeans.fit(X)` (lines 11-36).  `np.random.choice(n_samples, k,
replace=False)` (line 15) raises `ValueError` when `k > n_samples` and
otherwise yields `k` distinct row indices, supplied here as the external
parameter `initIdx`; no other validation of `k` exists in the source. -/
def kmeansFitL (X : List (List ℚ)) (k maxIters : ℕ) (tol : ℚ)
    (initIdx : List ℕ) (reseed : ℕ → ℕ → ℕ) : Except String (List ℕ) :=
  if X.length < k then
    .error "Cannot take a larger sample than population when replace is False"
  else
    .ok (kmeansLoop X k (X.headD []).length tol reseed (List.range maxIters)
      (initIdx.map (fun i => X.getD i [])))

/-- C5: the claim says every invalid `k` (`k < 2` as well as `k > N`) fails
fast with a descriptive error.  Only `k > N` errors (via
`np.random.choice`); `k = 1 < 2` silently proceeds and fits happily: on
X = [[0],[1]] with k = 1 the fit returns the label vector [0, 0] instead
of raising, converging in two iterations to the single centroid [1/2]. -/
theorem kmeans_small_k_silently_succeeds :
    kmeansFitL [[0], [1]] 1 5 (1 / 1000) [0] (fun _ _ => 0) = .ok [0, 0] ∧
    kmeansFitL [[0], [1]] 3 5 (1 / 1000) [0, 1, 0] (fun _ _ => 0)
      = .error "Cannot take a larger sample than population when replace is False" := by
  constructor
  · simp [kmeansFitL, kmeansLoop, kmeansAssign, kmeansUpdate, centroidsClose,
      argminIdx, sqDistL, meanVec, colMean, List.range_succ, List.enum,
      List.enumFrom]
  · simp [kmeansFitL]

/- ### KMedoids (src/algorithms.py lines 42-93) -/

/-- Absolute value written with an explicit sign test, so that concrete
evaluations reduce by deciding the comparison. -/
def ratAbs (q : ℚ) : ℚ := if q < 0 then -q else q

/-- `ratAbs` is the absolute value. -/
theorem ratAbs_eq_abs (q : ℚ) : ratAbs q = |q| := by
  unfold ratAbs
  rcases lt_or_le q 0 with h | h
  · rw [if_pos h, abs_of_neg h]
  · rw [if_neg (not_lt.mpr h), abs_of_nonneg h]

/-- KMedoids assignment step (lines 58-59) for one-dimensional data (each
sample a single rational; the Euclidean norm is then `|x - m|`): nearest
medoid, first index on ties. -/
def kmedAssign (X : List ℚ) (med : List ℕ) : List ℕ :=
  X.map (fun x => argminIdx (med.map (fun mi => ratAbs (x - X.getD mi 0))))

/-- Cost of candidate medoid `m` for a cluster (line 75): total (unsquared)
distance from every cluster member to `m`. -/
def kmedCost (X : List ℚ) (members : List ℕ) (m : ℕ) : ℚ :=
  (members.map (fun j => ratAbs (X.getD j 0 - X.getD m 0))).sum

/-- Medoid update for one cluster (lines 63-82): scan the members in
ascending index order keeping the first strict improvement
(`cost < curr_min_cost` starting from infinity), i.e. the first member of
minimal total distance; an empty cluster keeps its medoid (`continue`). -/
def kmedBest (X : List ℚ) (members : List ℕ) (old : ℕ) : ℕ :=
  match members with
  | [] => old
  | j :: rest =>
      (rest.foldl
        (fun best j' =>
          if kmedCost X members j' < best.1 then (kmedCost X members j', j') else best)
        (kmedCost X members j, j)).2

/-- Medoid update step over all clusters (lines 61-85). -/
def kmedUpdate (X : List ℚ) (L : List ℕ) (med : List ℕ) : List ℕ :=
  med.enum.map (fun p =>
    kmedBest X ((List.range X.length).filter (fun j => decide (L.getD j 0 = p.1))) p.2)

/-- One iteration of the `KMedoids.fit` loop (lines 57-88): assignment
against the current medoids, then the medoid update.  The state is the
pair `(self.labels, self.medoid_indices)` as stored at the end of the
loop body. -/
def kmedStep (X : List ℚ) (s : List ℕ × List ℕ) : List ℕ × List ℕ :=
  (kmedAssign X s.2, kmedUpdate X (kmedAssign X s.2) s.2)

/-- The `(labels, medoid_indices)` state after `t` iterations of
`KMedoids.fit` started from the initial medoid indices `med0` (line 54's
random draw, an external parameter).  Once an iteration changes nothing
(`changed == False`, the loop's exit test) the step function is the
identity, so the trace is constant from the convergence point on. -/
def kmedTrace (X : List ℚ) (med0 : List ℕ) (t : ℕ) : List ℕ × List ℕ :=
  (List.range t).foldl (fun s _ => kmedStep X s) ([], med0)

/-- Unfolding lemma: the state after `t + 1` iterations is one step applied
to the state after `t` iterations. -/
theorem kmedTrace_succ (X : List ℚ) (med0 : List ℕ) (t : ℕ) :
    kmedTrace X med0 (t + 1) = kmedStep X (kmedTrace X med0 t) := by
  simp [kmedTrace, List.range_succ]

/-- The claimed quantity for KMedoids after iteration `t`: sum over all
samples of the squared distance to the medoid of the cluster the sample
is assigned to. -/
def kmedInertiaSq (X : List ℚ) (med0 : List ℕ) (t : ℕ) : ℚ :=
  ((List.range X.length).map (fun j =>
    (X.getD j 0 -
      X.getD ((kmedTrace X med0 t).2.getD ((kmedTrace X med0 t).1.getD j 0) 0) 0) ^ 2)).sum

/-- C4 counterexample: the claim asserts the sum of squared distances to
the assigned medoid is non-increasing across iterations of `KMedoids.fit`.
The medoid update minimizes the sum of *unsquared* distances, which can
push the squared sum up.  On the one-dimensional 8 samples
[-1, 0, 4, 5, 5, 5, -11/2, -8] with initial medoid indices [3, 7]
(values 5 and -8), iteration 1 ends with medoids (4, -11/2) and squared
cost 201/4, and iteration 2 (still before convergence: the medoids change
again) ends with medoids (5, -11/2) and squared cost 105/2 > 201/4. -/
theorem kmedoids_squared_inertia_can_increase :
    kmedInertiaSq [-1, 0, 4, 5, 5, 5, -11/2, -8] [3, 7] 1 = 201 / 4 ∧
    kmedInertiaSq [-1, 0, 4, 5, 5, 5, -11/2, -8] [3, 7] 2 = 105 / 2 ∧
    ¬ (kmedInertiaSq [-1, 0, 4, 5, 5, 5, -11/2, -8] [3, 7] 2
        ≤ kmedInertiaSq [-1, 0, 4, 5, 5, 5, -11/2, -8] [3, 7] 1) ∧
    (kmedTrace [-1, 0, 4, 5, 5, 5, -11/2, -8] [3, 7] 2).2
      ≠ (kmedTrace [-1, 0, 4, 5, 5, 5, -11/2, -8] [3, 7] 1).2 := by
  have step1 : kmedTrace [-1, 0, 4, 5, 5, 5, -11/2, -8] [3, 7] 1
      = ([0, 0, 0, 0, 0, 0, 1, 1], [2, 6]) := by
    norm_num [kmedTrace, kmedStep, kmedAssign, kmedUpdate, kmedBest, kmedCost,
      ratAbs, argminIdx, List.range_succ, List.enum, List.enumFrom, List.getD]
  have step2 : kmedTrace [-1, 0, 4, 5, 5, 5, -11/2, -8] [3, 7] 2
      = ([1, 0, 0, 0, 0, 0, 1, 1], [3, 6]) := by
    rw [show (2 : ℕ) = 1 + 1 from rfl, kmedTrace_succ, step1]
    norm_num [kmedStep, kmedAssign, kmedUpdate, kmedBest, kmedCost,
      ratAbs, argminIdx, List.range_succ, List.enum, List.enumFrom, List.getD]
  refine ⟨?_, ?_, ?_, ?_⟩
  · simp only [kmedInertiaSq, step1]
    norm_num [List.range_succ, List.getD]
  · simp only [kmedInertiaSq, step2]
    norm_num [List.range_succ, List.getD]
  · simp only [kmedInertiaSq, step1, step2]
    norm_num [List.range_succ, List.getD]
  · rw [step1, step2]
    decide

/- ### Properties of listMin / listMax -/

theorem foldl_min_le_init (xs : List ℚ) (a : ℚ) : xs.foldl min a ≤ a := by
  induction xs generalizing a with
  | nil => simp
  | cons x xs ih => exact le_trans (ih (min a x)) (min_le_left a x)

theorem foldl_min_le_mem (xs : List ℚ) (a b : ℚ) (hb : b ∈ xs) : xs.foldl min a ≤ b := by
  induction xs generalizing a with
  | nil => cases hb
  | cons x xs ih =>
    rcases List.mem_cons.mp hb with rfl | h
    · exact le_trans (foldl_min_le_init xs (min a b)) (min_le_right a b)
    · exact ih (min a x) h

theorem foldl_min_mem (xs : List ℚ) (a : ℚ) :
    xs.foldl min a = a ∨ xs.foldl min a ∈ xs := by
  induction xs generalizing a with
  | nil => exact Or.inl rfl
  | cons x xs ih =>
    rw [List.foldl_cons]
    rcases ih (min a x) with h | h
    · rw [h]
      rcases min_choice a x with h' | h'
      · exact Or.inl h'
      · exact Or.inr (by rw [h']; exact List.mem_cons_self x xs)
    · exact Or.inr (List.mem_cons_of_mem x h)

theorem listMin_le (xs : List ℚ) (b : ℚ) (hb : b ∈ xs) : listMin xs ≤ b := by
  cases xs with
  | nil => cases hb
  | cons x xs =>
    rcases List.mem_cons.mp hb with rfl | h
    · exact foldl_min_le_init xs b
    · exact foldl_min_le_mem xs x b h

theorem listMin_mem (xs : List ℚ) (hx : xs ≠ []) : listMin xs ∈ xs := by
  cases xs with
  | nil => exact absurd rfl hx
  | cons x xs =>
    rcases foldl_min_mem xs x with h | h
    · exact List.mem_cons.mpr (Or.inl h)
    · exact List.mem_cons_of_mem x h

theorem init_le_foldl_max (xs : List ℚ) (a : ℚ) : a ≤ xs.foldl max a := by
  induction xs generalizing a with
  | nil => simp
  | cons x xs ih => exact le_trans (le_max_left a x) (ih (max a x))

theorem mem_le_foldl_max (xs : List ℚ) (a b : ℚ) (hb : b ∈ xs) : b ≤ xs.foldl max a := by
  induction xs generalizing a with
  | nil => cases hb
  | cons x xs ih =>
    rcases List.mem_cons.mp hb with rfl | h
    · exact le_trans (le_max_right a b) (init_le_foldl_max xs (max a b))
    · exact ih (max a x) h

theorem foldl_max_mem (xs : List ℚ) (a : ℚ) :
    xs.foldl max a = a ∨ xs.foldl max a ∈ xs := by
  induction xs generalizing a with
  | nil => exact Or.inl rfl
  | cons x xs ih =>
    rw [List.foldl_cons]
    rcases ih (max a x) with h | h
    · rw [h]
      rcases max_choice a x with h' | h'
      · exact Or.inl h'
      · exact Or.inr (by rw [h']; exact List.mem_cons_self x xs)
    · exact Or.inr (List.mem_cons_of_mem x h)

theorem le_listMax (xs : List ℚ) (b : ℚ) (hb : b ∈ xs) : b ≤ listMax xs := by
  cases xs with
  | nil => cases hb
  | cons x xs =>
    rcases List.mem_cons.mp hb with rfl | h
    · exact init_le_foldl_max xs b
    · exact mem_le_foldl_max xs x b h

theorem listMax_mem (xs : List ℚ) (hx : xs ≠ []) : listMax xs ∈ xs := by
  cases xs with
  | nil => exact absurd rfl hx
  | cons x xs =>
    rcases foldl_max_mem xs x with h | h
    · exact List.mem_cons.mpr (Or.inl h)
    · exact List.mem_cons_of_mem x h

theorem listMin_le_listMax (xs : List ℚ) (hx : xs ≠ []) : listMin xs ≤ listMax xs :=
  listMin_le xs (listMax xs) (listMax_mem xs hx)

/- ### Properties of the scalers -/

/-- A list of nonnegative reals summing to zero is all zeros. -/
theorem list_sum_nonneg_eq_zero {l : List ℝ} (h0 : ∀ z ∈ l, 0 ≤ z)
    (hs : l.sum = 0) : ∀ z ∈ l, z = 0 := by
  induction l with
  | nil => intro z hz; cases hz
  | cons a l ih =>
    have ha : 0 ≤ a := h0 a (List.mem_cons_self a l)
    have hl : 0 ≤ l.sum := List.sum_nonneg (fun z hz => h0 z (List.mem_cons_of_mem a hz))
    rw [List.sum_cons] at hs
    have ha0 : a = 0 := by linarith
    have hl0 : l.sum = 0 := by linarith
    intro z hz
    rcases List.mem_cons.mp hz with rfl | hz'
    · exact ha0
    · exact ih (fun w hw => h0 w (List.mem_cons_of_mem a hw)) hl0 z hz'

/-- The deviations from the column mean sum to zero. -/
theorem sum_sub_mean_eq_zero (ys : List ℝ) :
    (ys.map (fun x => x - realColMean ys)).sum = 0 := by
  rcases eq_or_ne ys [] with rfl | hy
  · simp
  · have hn : (ys.length : ℝ) ≠ 0 :=
      Nat.cast_ne_zero.mpr (fun h0 => hy (List.length_eq_zero.mp h0))
    have hsum : (ys.map (fun x => x - realColMean ys)).sum
        = ys.sum - ys.length * realColMean ys := by
      simp only [sub_eq_add_neg]
      rw [List.sum_map_add]
      simp [List.map_const, List.sum_replicate, nsmul_eq_mul, mul_comm]
    rw [hsum, realColMean]
    field_simp

/-- The standardized column always has mean 0 (on training data). -/
theorem stdTransform_mean_zero (ys : List ℝ) :
    realColMean (stdScalerFitTransform ys) = 0 := by
  have h : (ys.map (fun x => (x - realColMean ys) / stdScalerStd ys)).sum = 0 := by
    simp only [div_eq_mul_inv]
    rw [List.sum_map_mul_right, sum_sub_mean_eq_zero, zero_mul]
  rw [realColMean, stdScalerFitTransform, h, zero_div]

/-- The population variance is nonnegative. -/
theorem realColVar_nonneg (ys : List ℝ) : 0 ≤ realColVar ys := by
  refine div_nonneg (List.sum_nonneg ?_) (Nat.cast_nonneg _)
  intro z hz
  obtain ⟨a, _, rfl⟩ := List.mem_map.mp hz
  exact sq_nonneg _

/-- On a column of nonzero variance, the standardized column has population
variance exactly 1. -/
theorem stdTransform_var_one (ys : List ℝ) (hy : ys ≠ [])
    (hV : realColVar ys ≠ 0) : realColVar (stdScalerFitTransform ys) = 1 := by
  have hn : (ys.length : ℝ) ≠ 0 :=
    Nat.cast_ne_zero.mpr (fun h0 => hy (List.length_eq_zero.mp h0))
  have hV0 : 0 ≤ realColVar ys := realColVar_nonneg ys
  have hs : Real.sqrt (realColVar ys) ≠ 0 := by
    rw [Ne, Real.sqrt_eq_zero hV0]
    exact hV
  have hstd : stdScalerStd ys = Real.sqrt (realColVar ys) := if_neg hs
  rw [realColVar, stdTransform_mean_zero]
  rw [stdScalerFitTransform, List.map_map, List.length_map]
  simp only [Function.comp_def, sub_zero, div_pow, hstd]
  rw [Real.sq_sqrt hV0]
  simp only [div_eq_mul_inv, List.sum_map_mul_right]
  have hVdef : (ys.map (fun x => (x - realColMean ys) ^ 2)).sum
      = realColVar ys * ys.length := by
    rw [realColVar]
    field_simp
  rw [hVdef]
  field_simp

/-- C2 (amended): after `fit(X)` on a nonempty training column,
`MinMaxScaler.transform(X)` has column minimum 0 and maximum 1 whenever the
column range is nonzero, and `StandardScaler.transform(X)` has column mean 0
always and standard deviation (hence variance) 1 whenever the column
variance is nonzero.  On a zero-range (resp. zero-variance) column the
transformed output is identically **0** — the original values shifted by
their common value and divided by the substituted denominator 1.0 — not the
original column values as the claim stated. -/
theorem scaler_columns_normalized (xs : List ℚ) (hx : xs ≠ [])
    (ys : List ℝ) (hy : ys ≠ []) :
    (listMax xs - listMin xs ≠ 0 →
      listMin (minMaxFitTransform xs) = 0 ∧ listMax (minMaxFitTransform xs) = 1) ∧
    (listMax xs - listMin xs = 0 → ∀ z ∈ minMaxFitTransform xs, z = 0) ∧
    realColMean (stdScalerFitTransform ys) = 0 ∧
    (realColVar ys ≠ 0 → Real.sqrt (realColVar (stdScalerFitTransform ys)) = 1) ∧
    (realColVar ys = 0 → ∀ z ∈ stdScalerFitTransform ys, z = 0) := by
  have htne : minMaxFitTransform xs ≠ [] := by
    simp only [minMaxFitTransform, Ne, List.map_eq_nil_iff]
    exact hx
  refine ⟨?_, ?_, stdTransform_mean_zero ys, ?_, ?_⟩
  · intro h
    have hle := listMin_le_listMax xs hx
    have hrpos : 0 < listMax xs - listMin xs := (sub_nonneg.mpr hle).lt_of_ne (Ne.symm h)
    have hr : minMaxRange xs = listMax xs - listMin xs := if_neg h
    constructor
    · have h0mem : (0 : ℚ) ∈ minMaxFitTransform xs := by
        rw [minMaxFitTransform]
        exact List.mem_map.mpr ⟨listMin xs, listMin_mem xs hx, by rw [sub_self, zero_div]⟩
      refine le_antisymm (listMin_le _ _ h0mem) ?_
      have hmem := listMin_mem (minMaxFitTransform xs) htne
      rw [minMaxFitTransform] at hmem
      obtain ⟨a, ha, hfa⟩ := List.mem_map.mp hmem
      rw [minMaxFitTransform, ← hfa, hr]
      exact div_nonneg (sub_nonneg.mpr (listMin_le xs a ha)) hrpos.le
    · have h1mem : (1 : ℚ) ∈ minMaxFitTransform xs := by
        rw [minMaxFitTransform]
        refine List.mem_map.mpr ⟨listMax xs, listMax_mem xs hx, ?_⟩
        rw [hr]
        exact div_self h
      refine le_antisymm ?_ (le_listMax _ _ h1mem)
      have hmem := listMax_mem (minMaxFitTransform xs) htne
      rw [minMaxFitTransform] at hmem
      obtain ⟨a, ha, hfa⟩ := List.mem_map.mp hmem
      rw [minMaxFitTransform, ← hfa, hr, div_le_one hrpos]
      have := le_listMax xs a ha
      linarith
  · intro h z hz
    have hr : minMaxRange xs = 1 := if_pos h
    rw [minMaxFitTransform] at hz
    obtain ⟨a, ha, hfa⟩ := List.mem_map.mp hz
    have h1 := listMin_le xs a ha
    have h2 := le_listMax xs a ha
    have ha' : a = listMin xs := by linarith
    rw [← hfa, hr, ha', sub_self, zero_div]
  · intro hV
    rw [stdTransform_var_one ys hy hV, Real.sqrt_one]
  · intro hV z hz
    have hn : (ys.length : ℝ) ≠ 0 :=
      Nat.cast_ne_zero.mpr (fun h0 => hy (List.length_eq_zero.mp h0))
    have hsum0 : (ys.map (fun x => (x - realColMean ys) ^ 2)).sum = 0 := by
      rw [realColVar] at hV
      rcases div_eq_zero_iff.mp hV with h' | h'
      · exact h'
      · exact absurd h' hn
    have hall := list_sum_nonneg_eq_zero
      (fun w hw => by obtain ⟨a, _, rfl⟩ := List.mem_map.mp hw; exact sq_nonneg _) hsum0
    rw [stdScalerFitTransform] at hz
    obtain ⟨a, ha, hfa⟩ := List.mem_map.mp hz
    have hsq : (a - realColMean ys) ^ 2 = 0 :=
      hall _ (List.mem_map.mpr ⟨a, ha, rfl⟩)
    have ha0 : a - realColMean ys = 0 := by
      exact pow_eq_zero_iff (two_ne_zero) |>.mp hsq
    rw [← hfa, ha0, zero_div]

/-- Witness for `scaler_columns_normalized` at the concrete columns
[1, 3] (rational, range 2) and [-1, 1] (real, variance 1). -/
theorem scaler_columns_normalized_witness :
    listMin (minMaxFitTransform [1, 3]) = 0 ∧
    listMax (minMaxFitTransform [1, 3]) = 1 ∧
    realColMean (stdScalerFitTransform [-1, 1]) = 0 ∧
    Real.sqrt (realColVar (stdScalerFitTransform [-1, 1])) = 1 := by
  have h := scaler_columns_normalized [1, 3] (by simp) [-1, 1] (by simp)
  obtain ⟨h1, _, h3, h4, _⟩ := h
  have hrange : listMax [(1 : ℚ), 3] - listMin [(1 : ℚ), 3] ≠ 0 := by
    norm_num [listMax, listMin]
  have hvar : realColVar [(-1 : ℝ), 1] ≠ 0 := by
    norm_num [realColVar, realColMean]
  exact ⟨(h1 hrange).1, (h1 hrange).2, h3, h4 hvar⟩

/-- `train_test_split` with the model permutation generator: the source
seeds numpy's global generator with `random_state` and asks it for a
permutation of the row indices. -/
def trainTestSplitSeeded (X y : List ℚ) (ts : ℚ) (seed : ℕ) :
    List ℚ × List ℚ × List ℚ × List ℚ :=
  trainTestSplit X y ts (modelPermutation seed X.length)

/-- C3 (amended): on aligned `X`, `y` with `N` rows and a permutation of
the row indices, `train_test_split` puts exactly `⌊N * test_size⌋` rows
(the source's `int(n_samples * test_size)`, **not** `round`) into the test
set and the remaining `N - ⌊N * test_size⌋` into the train set; the test
and train index lists are disjoint and together a permutation of all `N`
row indices; and each returned data row stays aligned with its label
(entry `j` of `X_test`/`y_test` is `X[i], y[i]` for the same original
index `i`, likewise for the train pair).  Determinism under a fixed seed
holds definitionally: the split is a pure function of `(X, y, test_size,
permutation)` and the seeded generator is a fixed function of the seed. -/
theorem train_test_split_partition
    (X y : List ℚ) (ts : ℚ) (perm : List ℕ) (n : ℕ)
    (hX : X.length = n) (hy : y.length = n) (hperm : perm.Perm (List.range n))
    (hts0 : 0 ≤ ts) (hts1 : ts ≤ 1) :
    (trainTestSplit X y ts perm).2.1.length = nTestOf n ts ∧
    (trainTestSplit X y ts perm).1.length = n - nTestOf n ts ∧
    (trainTestSplit X y ts perm).2.2.2.length = nTestOf n ts ∧
    (trainTestSplit X y ts perm).2.2.1.length = n - nTestOf n ts ∧
    (perm.take (nTestOf n ts) ++ perm.drop (nTestOf n ts)).Perm (List.range n) ∧
    (perm.take (nTestOf n ts)).Disjoint (perm.drop (nTestOf n ts)) ∧
    (trainTestSplit X y ts perm).2.1.zip (trainTestSplit X y ts perm).2.2.2
      = (perm.take (nTestOf n ts)).map (fun i => (X.getD i 0, y.getD i 0)) ∧
    (trainTestSplit X y ts perm).1.zip (trainTestSplit X y ts perm).2.2.1
      = (perm.drop (nTestOf n ts)).map (fun i => (X.getD i 0, y.getD i 0)) := by
  have hlen : perm.length = n := by
    rw [hperm.length_eq, List.length_range]
  have hnt : nTestOf n ts ≤ n := by
    rw [nTestOf, Int.toNat_le]
    calc ⌊(n : ℚ) * ts⌋ ≤ ⌊(n : ℚ) * 1⌋ :=
          Int.floor_le_floor (by
            have : (0 : ℚ) ≤ (n : ℚ) := Nat.cast_nonneg n
            nlinarith)
      _ = (n : ℤ) := by rw [mul_one, Int.floor_natCast]
  have hnodup : perm.Nodup := List.Perm.nodup hperm.symm (List.nodup_range n)
  refine ⟨?_, ?_, ?_, ?_, ?_, ?_, ?_, ?_⟩
  · simp [trainTestSplit, List.length_take, hX, hlen, min_eq_left hnt]
  · simp [trainTestSplit, List.length_drop, hX, hlen]
  · simp [trainTestSplit, List.length_take, hX, hlen, min_eq_left hnt]
  · simp [trainTestSplit, List.length_drop, hX, hlen]
  · rw [List.take_append_drop]
    exact hperm
  · have : (perm.take (nTestOf n ts) ++ perm.drop (nTestOf n ts)).Nodup := by
      rw [List.take_append_drop]
      exact hnodup
    exact (List.nodup_append.mp this).2.2
  · simp only [trainTestSplit, hX]
    exact List.zip_map' _ _ _
  · simp only [trainTestSplit, hX]
    exact List.zip_map' _ _ _

/-- Witness for `train_test_split_partition`: the spec's concrete
scenario — 10 rows, `test_size = 0.2`, seed 42 — yields a size-2 test
set and a size-8 train set whose index lists are disjoint and cover all
10 indices. -/
theorem train_test_split_partition_witness :
    (trainTestSplitSeeded [0, 1, 2, 3, 4, 5, 6, 7, 8, 9]
        [0, 1, 2, 3, 4, 5, 6, 7, 8, 9] (1 / 5) 42).2.1.length = 2 ∧
    (trainTestSplitSeeded [0, 1, 2, 3, 4, 5, 6, 7, 8, 9]
        [0, 1, 2, 3, 4, 5, 6, 7, 8, 9] (1 / 5) 42).1.length = 8 ∧
    ((modelPermutation 42 10).take (nTestOf 10 (1 / 5))).Disjoint
      ((modelPermutation 42 10).drop (nTestOf 10 (1 / 5))) ∧
    ((modelPermutation 42 10).take (nTestOf 10 (1 / 5)) ++
        (modelPermutation 42 10).drop (nTestOf 10 (1 / 5))).Perm (List.range 10) := by
  have hnt : nTestOf 10 (1 / 5) = 2 := by
    have h2 : ⌊((10 : ℕ) : ℚ) * (1 / 5)⌋ = 2 := by norm_num
    rw [nTestOf, h2]
    rfl
  have h := train_test_split_partition [0, 1, 2, 3, 4, 5, 6, 7, 8, 9]
    [0, 1, 2, 3, 4, 5, 6, 7, 8, 9] (1 / 5) (modelPermutation 42 10) 10
    rfl rfl (by decide) (by norm_num) (by norm_num)
  obtain ⟨h1, h2, _, _, h5, h6, _, _⟩ := h
  have hseed : trainTestSplitSeeded [0, 1, 2, 3, 4, 5, 6, 7, 8, 9]
      [0, 1, 2, 3, 4, 5, 6, 7, 8, 9] (1 / 5) 42
      = trainTestSplit [0, 1, 2, 3, 4, 5, 6, 7, 8, 9]
        [0, 1, 2, 3, 4, 5, 6, 7, 8, 9] (1 / 5) (modelPermutation 42 10) := rfl
  refine ⟨?_, ?_, h6, h5⟩
  · rw [hseed, h1, hnt]
  · rw [hseed, h2, hnt]

/- ### Properties of argminIdx -/

theorem argmin_foldl_spec (l : List (ℕ × ℚ)) (acc : ℚ × ℕ) :
    (l.foldl (fun best p => if p.2 < best.1 then (p.2, p.1) else best) acc = acc
      ∨ ∃ p ∈ l, l.foldl (fun best p => if p.2 < best.1 then (p.2, p.1) else best) acc
          = (p.2, p.1)) ∧
    (l.foldl (fun best p => if p.2 < best.1 then (p.2, p.1) else best) acc).1 ≤ acc.1 ∧
    ∀ p ∈ l, (l.foldl (fun best p => if p.2 < best.1 then (p.2, p.1) else best) acc).1 ≤ p.2 := by
  induction l generalizing acc with
  | nil =>
    refine ⟨Or.inl rfl, le_refl _, ?_⟩
    intro p hp
    cases hp
  | cons q l ih =>
    rw [List.foldl_cons]
    obtain ⟨ih1, ih2, ih3⟩ := ih (if q.2 < acc.1 then (q.2, q.1) else acc)
    have hacc1 : (if q.2 < acc.1 then (q.2, q.1) else acc).1 ≤ acc.1 := by
      split
      · exact le_of_lt (by assumption)
      · exact le_refl _
    have haccq : (if q.2 < acc.1 then (q.2, q.1) else acc).1 ≤ q.2 := by
      split
      · exact le_refl _
      · exact le_of_not_lt (by assumption)
    refine ⟨?_, le_trans ih2 hacc1, ?_⟩
    · rcases ih1 with h | ⟨p, hp, hfp⟩
      · rw [h]
        split
        · exact Or.inr ⟨q, List.mem_cons_self q l, rfl⟩
        · exact Or.inl rfl
      · exact Or.inr ⟨p, List.mem_cons_of_mem q hp, hfp⟩
    · intro p hp
      rcases List.mem_cons.mp hp with rfl | hp'
      · exact le_trans ih2 haccq
      · exact ih3 p hp'

/-- `np.argmin` returns an in-range index whose value is a minimum of the
whole list. -/
theorem argminIdx_spec (ds : List ℚ) (h : ds ≠ []) :
    argminIdx ds < ds.length ∧
    ∀ j, j < ds.length → ds.getD (argminIdx ds) 0 ≤ ds.getD j 0 := by
  obtain ⟨h1, _, h3⟩ := argmin_foldl_spec ds.enum (ds.headD 0, 0)
  have hval : (ds.enum.foldl (fun best p => if p.2 < best.1 then (p.2, p.1) else best)
      (ds.headD 0, 0)).1
      = ds.getD (argminIdx ds) 0 := by
    rcases h1 with h' | ⟨p, hp, hfp⟩
    · rw [argminIdx, h']
      cases ds with
      | nil => exact absurd rfl h
      | cons a l => rfl
    · obtain ⟨hlt, hpv⟩ := List.mem_enum hp
      rw [argminIdx, hfp]
      simp only
      rw [hpv, List.getD_eq_getElem ds 0 hlt]
  constructor
  · rcases h1 with h' | ⟨p, hp, hfp⟩
    · rw [argminIdx, h']
      cases ds with
      | nil => exact absurd rfl h
      | cons a l => simp
    · obtain ⟨hlt, _⟩ := List.mem_enum hp
      rw [argminIdx, hfp]
      exact hlt
  · intro j hj
    rw [← hval]
    have hmem : (j, ds[j]) ∈ ds.enum := by
      have h2 : j < ds.enum.length := by
        rw [List.enum_length]
        exact hj
      have h3' := List.getElem_mem h2
      rwa [List.getElem_enum] at h3'
    have := h3 (j, ds[j]) hmem
    rwa [List.getD_eq_getElem ds 0 hj]

/- ### The mean minimizes the sum of squared deviations -/

/-- ℚ version of the mean-deviation identity. -/
theorem rat_sum_sub_mean (l : List ℚ) :
    (l.map (fun a => a - l.sum / l.length)).sum = 0 := by
  rcases eq_or_ne l [] with rfl | hl
  · simp
  · have hn : (l.length : ℚ) ≠ 0 :=
      Nat.cast_ne_zero.mpr (fun h0 => hl (List.length_eq_zero.mp h0))
    have hsum : (l.map (fun a => a - l.sum / l.length)).sum
        = l.sum - l.length * (l.sum / l.length) := by
      simp only [sub_eq_add_neg]
      rw [List.sum_map_add]
      simp [List.map_const, List.sum_replicate, nsmul_eq_mul, mul_comm]
    rw [hsum]
    field_simp

/-- Replacing any candidate `c` by the list's mean does not increase the sum
of squared deviations (the scalar heart of the K-Means update step). -/
theorem sum_sq_dev_mean_le (l : List ℚ) (c : ℚ) :
    (l.map (fun a => (a - l.sum / l.length) ^ 2)).sum
      ≤ (l.map (fun a => (a - c) ^ 2)).sum := by
  have hexp : (fun a : ℚ => (a - c) ^ 2)
      = (fun a : ℚ => (a - l.sum / l.length) ^ 2
        + (2 * (l.sum / l.length - c) * (a - l.sum / l.length)
            + (l.sum / l.length - c) ^ 2)) := by
    funext a
    ring
  have hkey : (l.map (fun a => (a - c) ^ 2)).sum
      = (l.map (fun a => (a - l.sum / l.length) ^ 2)).sum
        + (2 * (l.sum / l.length - c) * ((l.map (fun a => a - l.sum / l.length)).sum)
            + l.length * (l.sum / l.length - c) ^ 2) := by
    calc (l.map (fun a => (a - c) ^ 2)).sum
        = (l.map (fun a => (a - l.sum / l.length) ^ 2
            + (2 * (l.sum / l.length - c) * (a - l.sum / l.length)
                + (l.sum / l.length - c) ^ 2))).sum := by
          rw [hexp]
      _ = (l.map (fun a => (a - l.sum / l.length) ^ 2)).sum
            + ((l.map (fun a => 2 * (l.sum / l.length - c) * (a - l.sum / l.length))).sum
              + (l.map (fun _ => (l.sum / l.length - c) ^ 2)).sum) := by
          rw [List.sum_map_add, List.sum_map_add]
      _ = (l.map (fun a => (a - l.sum / l.length) ^ 2)).sum
            + (2 * (l.sum / l.length - c) * ((l.map (fun a => a - l.sum / l.length)).sum)
              + l.length * (l.sum / l.length - c) ^ 2) := by
          rw [List.sum_map_mul_left]
          simp [List.map_const, List.sum_replicate, nsmul_eq_mul]
  rw [hkey, rat_sum_sub_mean]
  have hnn : 0 ≤ (l.length : ℚ) * (l.sum / l.length - c) ^ 2 :=
    mul_nonneg (Nat.cast_nonneg _) (sq_nonneg _)
  linarith

/-- For rows of a common length `d`, the squared distance is a sum over the
`d` coordinates. -/
theorem sqDistL_eq_sum_range (d : ℕ) :
    ∀ (r v : List ℚ), r.length = d → v.length = d →
      sqDistL r v = ∑ f ∈ Finset.range d, (r.getD f 0 - v.getD f 0) ^ 2 := by
  induction d with
  | zero =>
    intro r v hr hv
    rw [List.length_eq_zero.mp hr, List.length_eq_zero.mp hv]
    rfl
  | succ d ih =>
    intro r v hr hv
    cases r with
    | nil => cases hr
    | cons a r' =>
      cases v with
      | nil => cases hv
      | cons b v' =>
        have hr' : r'.length = d := by simpa using hr
        have hv' : v'.length = d := by simpa using hv
        rw [Finset.sum_range_succ']
        simp only [List.getD_cons_succ, List.getD_cons_zero]
        rw [← ih r' v' hr' hv']
        simp [sqDistL, List.zip_cons_cons]
        ring

/-- A list sum of finite sums commutes to a finite sum of list sums. -/
theorem list_sum_finset_sum_comm {α : Type} (rows : List α) (s : Finset ℕ)
    (g : α → ℕ → ℚ) :
    (rows.map (fun r => ∑ f ∈ s, g r f)).sum = ∑ f ∈ s, (rows.map (fun r => g r f)).sum := by
  induction rows with
  | nil => simp
  | cons r rows ih =>
    simp only [List.map_cons, List.sum_cons, ih]
    rw [← Finset.sum_add_distrib]

/-- The mean row minimizes the total squared distance over any candidate
row of the right length (vector form of `sum_sq_dev_mean_le`). -/
theorem sum_sqDist_meanVec_le (rows : List (List ℚ)) (d : ℕ)
    (hrect : ∀ r ∈ rows, r.length = d) (c : List ℚ) (hc : c.length = d) :
    (rows.map (fun r => sqDistL r (meanVec rows d))).sum
      ≤ (rows.map (fun r => sqDistL r c)).sum := by
  have hmlen : (meanVec rows d).length = d := by
    rw [meanVec, List.length_map, List.length_range]
  have hmget : ∀ f, f < d → (meanVec rows d).getD f 0 = colMean rows f := by
    intro f hf
    have hf' : f < (meanVec rows d).length := by rwa [hmlen]
    rw [List.getD_eq_getElem _ _ hf']
    simp [meanVec]
  have hL : (rows.map (fun r => sqDistL r (meanVec rows d))).sum
      = ∑ f ∈ Finset.range d, (rows.map (fun r => (r.getD f 0 - (meanVec rows d).getD f 0) ^ 2)).sum := by
    rw [List.map_congr_left (fun r hr =>
      sqDistL_eq_sum_range d r (meanVec rows d) (hrect r hr) hmlen)]
    exact list_sum_finset_sum_comm rows _ _
  have hR : (rows.map (fun r => sqDistL r c)).sum
      = ∑ f ∈ Finset.range d, (rows.map (fun r => (r.getD f 0 - c.getD f 0) ^ 2)).sum := by
    rw [List.map_congr_left (fun r hr =>
      sqDistL_eq_sum_range d r c (hrect r hr) hc)]
    exact list_sum_finset_sum_comm rows _ _
  rw [hL, hR]
  refine Finset.sum_le_sum ?_
  intro f hf
  rw [hmget f (Finset.mem_range.mp hf)]
  have hcol : colMean rows f
      = (rows.map (fun r => r.getD f 0)).sum / (rows.map (fun r => r.getD f 0)).length := by
    rw [colMean, List.length_map]
  rw [hcol]
  have := sum_sq_dev_mean_le (rows.map (fun r => r.getD f 0)) (c.getD f 0)
  rw [List.map_map, List.map_map] at this
  simpa [Function.comp] using this

/-- Bridge from an index-set sum to a list sum over the filtered range. -/
theorem finset_filter_range_sum_eq (N : ℕ) (p : ℕ → Prop) [DecidablePred p]
    (h : ℕ → ℚ) :
    ∑ i ∈ (Finset.range N).filter p, h i
      = (((List.range N).filter (fun i => decide (p i))).map h).sum := by
  rw [← List.sum_toFinset _ (List.Nodup.filter _ (List.nodup_range N))]
  congr 1
  ext a
  simp [List.mem_filter]

/-- The rows of cluster `j` gathered by the boolean mask `X[labels == j]`
(in index order) are exactly the rows at the indices of the `j`-fiber. -/
theorem members_eq_filter_range (X : List (List ℚ)) (L : List ℕ) (j : ℕ)
    (hL : L.length = X.length) :
    ((X.zip L).filter (fun p => decide (p.2 = j))).map Prod.fst
      = ((List.range X.length).filter (fun i => decide (L.getD i 0 = j))).map
          (fun i => X.getD i []) := by
  induction X generalizing L with
  | nil => simp
  | cons x X' ih =>
    cases L with
    | nil => cases hL
    | cons l L' =>
      have hL' : L'.length = X'.length := by simpa using hL
      have hshift : List.filter (fun i => decide ((l :: L').getD i 0 = j))
          (List.map Nat.succ (List.range X'.length))
          = List.map Nat.succ
              (List.filter (fun i => decide (L'.getD i 0 = j)) (List.range X'.length)) := by
        rw [List.filter_map]
        congr 1
      have hmapsucc : List.map (fun i => (x :: X').getD i [])
            (List.map Nat.succ
              ((List.range X'.length).filter (fun i => decide (L'.getD i 0 = j))))
          = List.map (fun i => X'.getD i [])
              ((List.range X'.length).filter (fun i => decide (L'.getD i 0 = j))) := by
        rw [List.map_map]
        exact List.map_congr_left (fun a _ => by
          simp [Function.comp, List.getD_cons_succ])
      rw [List.zip_cons_cons, List.length_cons, List.range_succ_eq_map,
        List.filter_cons, List.filter_cons]
      simp only [List.getD_cons_zero]
      by_cases hlj : l = j
      · rw [if_pos (by simpa using hlj), if_pos (by simpa using hlj),
          List.map_cons, List.map_cons, hshift, hmapsucc, ih L' hL']
        rfl
      · rw [if_neg (by simpa using hlj), if_neg (by simpa using hlj),
          hshift, hmapsucc, ih L' hL']

/-- The claimed quantity for K-Means: sum over all samples of the squared
distance to the centroid of the cluster the sample is assigned to. -/
def kmeansInertia (X : List (List ℚ)) (L : List ℕ) (C : List (List ℚ)) : ℚ :=
  ∑ i ∈ Finset.range X.length, sqDistL (X.getD i []) (C.getD (L.getD i 0) [])

/-- The `(labels, centroids)` state after `t` iterations of the
`KMeans.fit` loop (lines 18-34) from initial centroids `C0`; `reseed it j`
is the random row drawn if cluster `j` is empty at iteration `it`.  As the
labels are recomputed from the current centroids at the start of every
iteration, the state is a fold of the one-iteration step. -/
def kmeansTraceL (X : List (List ℚ)) (k d : ℕ) (reseed : ℕ → ℕ → ℕ)
    (C0 : List (List ℚ)) (t : ℕ) : List ℕ × List (List ℚ) :=
  (List.range t).foldl
    (fun s it => (kmeansAssign X s.2, kmeansUpdate X k d (kmeansAssign X s.2) (reseed it)))
    ([], C0)

/-- Squared K-Means inertia of the state after `t` iterations. -/
def kmeansInertiaAt (X : List (List ℚ)) (k d : ℕ) (reseed : ℕ → ℕ → ℕ)
    (C0 : List (List ℚ)) (t : ℕ) : ℚ :=
  kmeansInertia X (kmeansTraceL X k d reseed C0 t).1 (kmeansTraceL X k d reseed C0 t).2

theorem kmeansTraceL_succ (X : List (List ℚ)) (k d : ℕ) (reseed : ℕ → ℕ → ℕ)
    (C0 : List (List ℚ)) (t : ℕ) :
    kmeansTraceL X k d reseed C0 (t + 1)
      = (kmeansAssign X (kmeansTraceL X k d reseed C0 t).2,
         kmeansUpdate X k d (kmeansAssign X (kmeansTraceL X k d reseed C0 t).2)
           (reseed t)) := by
  simp [kmeansTraceL, List.range_succ]

/-- Reassigning every sample to its nearest centroid does not increase the
inertia, whatever in-range labelling it replaces. -/
theorem kmeansAssign_inertia_le (X : List (List ℚ)) (C : List (List ℚ))
    (hC : C ≠ []) (L : List ℕ) (hLk : ∀ i, i < X.length → L.getD i 0 < C.length) :
    kmeansInertia X (kmeansAssign X C) C ≤ kmeansInertia X L C := by
  refine Finset.sum_le_sum ?_
  intro i hi
  have hiN : i < X.length := Finset.mem_range.mp hi
  have hassign : (kmeansAssign X C).getD i 0
      = argminIdx (C.map (fun c => sqDistL (X.getD i []) c)) := by
    have hlen : i < (kmeansAssign X C).length := by
      simp only [kmeansAssign, List.length_map]
      exact hiN
    rw [List.getD_eq_getElem _ _ hlen]
    simp only [kmeansAssign, List.getElem_map]
    congr 1
    rw [List.getD_eq_getElem _ _ hiN]
  have hdsne : C.map (fun c => sqDistL (X.getD i []) c) ≠ [] := by
    simp only [Ne, List.map_eq_nil_iff]
    exact hC
  obtain ⟨hlt, hmin⟩ := argminIdx_spec _ hdsne
  rw [List.length_map] at hlt
  have hgetds : ∀ m, m < C.length →
      (C.map (fun c => sqDistL (X.getD i []) c)).getD m 0
        = sqDistL (X.getD i []) (C.getD m []) := by
    intro m hm
    have hm' : m < (C.map (fun c => sqDistL (X.getD i []) c)).length := by
      rwa [List.length_map]
    rw [List.getD_eq_getElem _ _ hm', List.getElem_map, List.getD_eq_getElem _ _ hm]
  have hj := hLk i hiN
  have h1 := hmin (L.getD i 0) (by rwa [List.length_map])
  rw [hgetds _ hlt, hgetds _ hj] at h1
  rw [hassign]
  exact h1

/-- Moving every centroid to the mean of its cluster (or anywhere at all
for an empty cluster, including the random reseed row) does not increase
the inertia of a fixed in-range labelling. -/
theorem kmeansUpdate_inertia_le (X : List (List ℚ)) (k d : ℕ) (L : List ℕ)
    (reseed : ℕ → ℕ) (hrect : ∀ r ∈ X, r.length = d)
    (hLlen : L.length = X.length) (hLk : ∀ i, i < X.length → L.getD i 0 < k)
    (C : List (List ℚ)) (hCk : C.length = k) (hCd : ∀ v ∈ C, v.length = d) :
    kmeansInertia X L (kmeansUpdate X k d L reseed) ≤ kmeansInertia X L C := by
  have hmaps : ∀ i ∈ Finset.range X.length, L.getD i 0 ∈ Finset.range k :=
    fun i hi => Finset.mem_range.mpr (hLk i (Finset.mem_range.mp hi))
  rw [kmeansInertia, kmeansInertia,
    ← Finset.sum_fiberwise_of_maps_to hmaps
      (fun i => sqDistL (X.getD i []) ((kmeansUpdate X k d L reseed).getD (L.getD i 0) [])),
    ← Finset.sum_fiberwise_of_maps_to hmaps
      (fun i => sqDistL (X.getD i []) (C.getD (L.getD i 0) []))]
  refine Finset.sum_le_sum ?_
  intro j hj
  have hjk : j < k := Finset.mem_range.mp hj
  have hfib : ∀ (D : List (List ℚ)),
      ∑ i ∈ (Finset.range X.length).filter (fun i => L.getD i 0 = j),
          sqDistL (X.getD i []) (D.getD (L.getD i 0) [])
        = ((((X.zip L).filter (fun p => decide (p.2 = j))).map Prod.fst).map
            (fun r => sqDistL r (D.getD j []))).sum := by
    intro D
    rw [Finset.sum_congr rfl (fun i hi => by
      rw [(Finset.mem_filter.mp hi).2])]
    rw [finset_filter_range_sum_eq X.length (fun i => L.getD i 0 = j)
      (fun i => sqDistL (X.getD i []) (D.getD j []))]
    rw [members_eq_filter_range X L j hLlen, List.map_map]
    rfl
  rw [hfib, hfib]
  rcases eq_or_ne (((X.zip L).filter (fun p => decide (p.2 = j))).map Prod.fst) []
    with hmem | hmem
  · rw [hmem]
    simp
  · have hmemrect : ∀ r ∈ ((X.zip L).filter (fun p => decide (p.2 = j))).map Prod.fst,
        r.length = d := by
      intro r hr
      obtain ⟨p, hp, rfl⟩ := List.mem_map.mp hr
      exact hrect p.1 (List.of_mem_zip (List.mem_filter.mp hp).1).1
    have hupd : (kmeansUpdate X k d L reseed).getD j []
        = meanVec (((X.zip L).filter (fun p => decide (p.2 = j))).map Prod.fst) d := by
      have hj' : j < (kmeansUpdate X k d L reseed).length := by
        simp only [kmeansUpdate, List.length_map, List.length_range]
        exact hjk
      rw [List.getD_eq_getElem _ _ hj']
      simp only [kmeansUpdate, List.getElem_map, List.getElem_range]
      simp [List.isEmpty_iff, hmem]
    rw [hupd]
    have hClen : C.getD j [] ∈ C := by
      have hj' : j < C.length := by rwa [hCk]
      rw [List.getD_eq_getElem _ _ hj']
      exact List.getElem_mem hj'
    exact sum_sqDist_meanVec_le _ d hmemrect (C.getD j []) (hCd _ hClen)

theorem kmeansUpdate_length (X : List (List ℚ)) (k d : ℕ) (L : List ℕ)
    (r : ℕ → ℕ) : (kmeansUpdate X k d L r).length = k := by
  simp [kmeansUpdate]

theorem kmeansUpdate_rect (X : List (List ℚ)) (k d : ℕ) (L : List ℕ) (r : ℕ → ℕ)
    (hrect : ∀ row ∈ X, row.length = d) (hres : ∀ j, r j < X.length) :
    ∀ v ∈ kmeansUpdate X k d L r, v.length = d := by
  intro v hv
  simp only [kmeansUpdate, List.mem_map, List.mem_range] at hv
  obtain ⟨j, _, rfl⟩ := hv
  by_cases hE : (((X.zip L).filter (fun p => decide (p.2 = j))).map Prod.fst).isEmpty
  · rw [if_pos hE]
    have hr := hres j
    rw [List.getD_eq_getElem _ _ hr]
    exact hrect _ (List.getElem_mem hr)
  · rw [if_neg hE]
    simp [meanVec]

theorem kmeansAssign_length (X C : List (List ℚ)) :
    (kmeansAssign X C).length = X.length := by
  simp [kmeansAssign]

theorem kmeansAssign_range (X C : List (List ℚ)) (hk : 0 < C.length) :
    ∀ i, i < X.length → (kmeansAssign X C).getD i 0 < C.length := by
  intro i hi
  have hlen : i < (kmeansAssign X C).length := by
    simpa [kmeansAssign] using hi
  rw [List.getD_eq_getElem _ _ hlen]
  simp only [kmeansAssign, List.getElem_map]
  have hne : C.map (fun c => sqDistL (X[i]) c) ≠ [] := by
    simp only [Ne, List.map_eq_nil_iff]
    intro h
    rw [h] at hk
    exact absurd hk (lt_irrefl 0)
  have hspec := (argminIdx_spec _ hne).1
  rwa [List.length_map] at hspec

theorem kmeansTraceL_centroids_length (X : List (List ℚ)) (k d : ℕ)
    (reseed : ℕ → ℕ → ℕ) (C0 : List (List ℚ)) (hC0 : C0.length = k) :
    ∀ t, (kmeansTraceL X k d reseed C0 t).2.length = k := by
  intro t
  induction t with
  | zero => simpa [kmeansTraceL] using hC0
  | succ t ih =>
    rw [kmeansTraceL_succ]
    exact kmeansUpdate_length X k d _ _

/-- C4 (amended): across the iterations of `KMeans.fit` the sum of squared
distances from each sample to its assigned centroid is non-increasing:
after the first iteration, each subsequent iteration (reassign to the
nearest centroid, then move every centroid to its cluster's mean,
reseeding empty clusters with a sample row) can only lower the inertia of
the stored `(labels, centroids)` state.  For `KMedoids.fit` the
corresponding claim is false — see
`kmedoids_squared_inertia_can_increase`: its update step minimizes sums of
unsquared distances, which can increase the squared sum. -/
theorem kmeans_inertia_nonincreasing
    (X : List (List ℚ)) (k d : ℕ) (reseed : ℕ → ℕ → ℕ) (C0 : List (List ℚ)) (t : ℕ)
    (hrect : ∀ r ∈ X, r.length = d) (hres : ∀ it j, reseed it j < X.length)
    (hC0 : C0.length = k) (hk : 0 < k) (ht : 1 ≤ t) :
    kmeansInertiaAt X k d reseed C0 (t + 1) ≤ kmeansInertiaAt X k d reseed C0 t := by
  obtain ⟨t', rfl⟩ : ∃ t', t = t' + 1 := ⟨t - 1, (Nat.succ_pred_eq_of_pos ht).symm⟩
  have hCt : (kmeansTraceL X k d reseed C0 t').2.length = k :=
    kmeansTraceL_centroids_length X k d reseed C0 hC0 t'
  rw [kmeansInertiaAt, kmeansInertiaAt, kmeansTraceL_succ X k d reseed C0 (t' + 1),
    kmeansTraceL_succ X k d reseed C0 t']
  have hC1len : (kmeansUpdate X k d
      (kmeansAssign X (kmeansTraceL X k d reseed C0 t').2) (reseed t')).length = k :=
    kmeansUpdate_length X k d _ _
  have hC1rect : ∀ v ∈ kmeansUpdate X k d
      (kmeansAssign X (kmeansTraceL X k d reseed C0 t').2) (reseed t'), v.length = d :=
    kmeansUpdate_rect X k d _ _ hrect (hres t')
  have hC1ne : kmeansUpdate X k d
      (kmeansAssign X (kmeansTraceL X k d reseed C0 t').2) (reseed t') ≠ [] := by
    intro h
    rw [h] at hC1len
    exact absurd hC1len.symm (Nat.pos_iff_ne_zero.mp hk)
  calc kmeansInertia X
        (kmeansAssign X (kmeansUpdate X k d
          (kmeansAssign X (kmeansTraceL X k d reseed C0 t').2) (reseed t')))
        (kmeansUpdate X k d
          (kmeansAssign X (kmeansUpdate X k d
            (kmeansAssign X (kmeansTraceL X k d reseed C0 t').2) (reseed t')))
          (reseed (t' + 1)))
      ≤ kmeansInertia X
          (kmeansAssign X (kmeansUpdate X k d
            (kmeansAssign X (kmeansTraceL X k d reseed C0 t').2) (reseed t')))
          (kmeansUpdate X k d
            (kmeansAssign X (kmeansTraceL X k d reseed C0 t').2) (reseed t')) := by
        refine kmeansUpdate_inertia_le X k d _ _ hrect (kmeansAssign_length X _) ?_ _
          hC1len hC1rect
        intro i hi
        have := kmeansAssign_range X _ (by rw [hC1len]; exact hk) i hi
        rwa [hC1len] at this
    _ ≤ kmeansInertia X
          (kmeansAssign X (kmeansTraceL X k d reseed C0 t').2)
          (kmeansUpdate X k d
            (kmeansAssign X (kmeansTraceL X k d reseed C0 t').2) (reseed t')) := by
        refine kmeansAssign_inertia_le X _ hC1ne _ ?_
        intro i hi
        have := kmeansAssign_range X (kmeansTraceL X k d reseed C0 t').2
          (by rw [hCt]; exact hk) i hi
        rw [hCt] at this
        rwa [hC1len]

/-- Witness for `kmeans_inertia_nonincreasing`: X = [[0],[1]], k = 1,
initial centroid [[5]]; the inertia is 1/2 at iterations 1 and 2 and the
theorem gives the non-increase from iteration 1 to 2. -/
theorem kmeans_inertia_nonincreasing_witness :
    kmeansInertiaAt [[0], [1]] 1 1 (fun _ _ => 0) [[5]] 1 = 1 / 2 ∧
    kmeansInertiaAt [[0], [1]] 1 1 (fun _ _ => 0) [[5]] 2
      ≤ kmeansInertiaAt [[0], [1]] 1 1 (fun _ _ => 0) [[5]] 1 := by
  constructor
  · norm_num [kmeansInertiaAt, kmeansTraceL, kmeansAssign, kmeansUpdate,
      kmeansInertia, meanVec, colMean, argminIdx, sqDistL, List.range_succ,
      List.enum, List.enumFrom, Finset.sum_range_succ]
  · exact kmeans_inertia_nonincreasing [[0], [1]] 1 1 (fun _ _ => 0) [[5]] 1
      (by intro r hr; fin_cases hr <;> rfl)
      (fun it j => by norm_num) rfl one_pos le_rfl

/- ### KNN (src/algorithms.py lines 378-402) -/

/-- Majority vote (lines 399-400): `np.unique(..., return_counts=True)`
lists the distinct labels in sorted order with their counts, and
`np.argmax` picks the first count maximum; ties in the vote therefore go
to the smallest label. -/
def knnVote (labels : List ℚ) : ℚ :=
  (uniqueSorted labels).getD
    (argmaxIdx ((uniqueSorted labels).map (fun c => (labels.count c : ℚ)))) 0


/-- `np.argsort(distances)` (line 395): the training indices ordered by
distance to the query `x` (squared-distance comparisons).  `np.argsort`
(default kind) does not specify the relative order of equal distances; it
is modelled as a stable insertion sort on indices — the theorems below do
not depend on how distance ties are ordered. -/
def knnOrder (Xtr : List (List ℚ)) (x : List ℚ) : List ℕ :=
  List.insertionSort
    (fun i j => (Xtr.map (fun r => sqDistL x r)).getD i 0
      ≤ (Xtr.map (fun r => sqDistL x r)).getD j 0)
    (List.range Xtr.length)

/-- One query of `KNN.predict` (lines 391-401): distances to every stored
training row, the first `k` indices of the distance sort, and the
majority label among those. -/
def knnPredictOne (k : ℕ) (Xtr : List (List ℚ)) (ytr : List ℚ) (x : List ℚ) : ℚ :=
  knnVote (((knnOrder Xtr x).take k).map (fun i => ytr.getD i 0))

/-- `KNN.predict(X)` (lines 388-402). -/
def knnPredict (k : ℕ) (Xtr : List (List ℚ)) (ytr : List ℚ)
    (Xq : List (List ℚ)) : List ℚ :=
  Xq.map (knnPredictOne k Xtr ytr)

/-- C10 counterexample: the claim quantifies over every training set.  With
the duplicated training rows X = [[0], [0]] and distinct labels y = [0, 1],
both rows produce the same distance vector [0, 0], hence the same
prediction for both queries, so `predict` cannot return
y = [0, 1] — whatever order a sort puts the two tied indices in. -/
theorem knn_duplicate_rows_not_reproduced :
    knnPredict 1 [[0], [0]] [0, 1] [[0], [0]] = [0, 0] ∧
    knnPredict 1 [[0], [0]] [0, 1] [[0], [0]] ≠ [0, 1] := by
  constructor <;>
    norm_num [knnPredict, knnPredictOne, knnOrder, knnVote, uniqueSorted, argmaxIdx,
      sqDistL, List.insertionSort, List.orderedInsert, List.dedup, List.count,
      List.range_succ, List.enum, List.enumFrom, List.countP]

theorem sqDistL_self (r : List ℚ) : sqDistL r r = 0 := by
  induction r with
  | nil => rfl
  | cons a r ih =>
    rw [sqDistL, List.zip_cons_cons, List.map_cons, List.sum_cons, sub_self]
    rw [sqDistL] at ih
    rw [ih]
    ring

theorem sqDistL_nonneg (r v : List ℚ) : 0 ≤ sqDistL r v := by
  refine List.sum_nonneg ?_
  intro z hz
  obtain ⟨p, _, rfl⟩ := List.mem_map.mp hz
  exact sq_nonneg _

theorem eq_of_sqDistL_eq_zero (d : ℕ) (r v : List ℚ) (hr : r.length = d)
    (hv : v.length = d) (h : sqDistL r v = 0) : r = v := by
  rw [sqDistL_eq_sum_range d r v hr hv] at h
  have hall := (Finset.sum_eq_zero_iff_of_nonneg (fun f _ => sq_nonneg _)).mp h
  refine List.ext_getElem (by rw [hr, hv]) ?_
  intro m h1 h2
  have hm : m < d := by rwa [hr] at h1
  have hsq := hall m (Finset.mem_range.mpr hm)
  have h0 : r.getD m 0 - v.getD m 0 = 0 := by
    exact pow_eq_zero_iff two_ne_zero |>.mp hsq
  rw [List.getD_eq_getElem _ _ h1, List.getD_eq_getElem _ _ h2] at h0
  linarith

theorem knnVote_single (c : ℚ) : knnVote [c] = c := by
  have hdedup : List.dedup [c] = [c] := by
    simp [List.dedup_cons_of_not_mem]
  simp [knnVote, uniqueSorted, hdedup, List.insertionSort, List.orderedInsert,
    argmaxIdx, List.count_singleton, List.enum, List.enumFrom]

/-- With pairwise-distinct training rows, the distance sort for the query
`Xtr[n]` starts with `n` itself: its distance to itself is 0 and to every
other (distinct) row is positive, so no tie is involved. -/
theorem knnOrder_head_self (Xtr : List (List ℚ)) (d n : ℕ) (h1 : n < Xtr.length)
    (hrect : ∀ r ∈ Xtr, r.length = d) (hnd : Xtr.Nodup) :
    ∃ rest, knnOrder Xtr (Xtr[n]) = n :: rest := by
  set R : ℕ → ℕ → Prop := fun i j =>
    (Xtr.map (fun r => sqDistL (Xtr[n]) r)).getD i 0
      ≤ (Xtr.map (fun r => sqDistL (Xtr[n]) r)).getD j 0 with hR
  haveI : IsTotal ℕ R := ⟨fun a b => le_total _ _⟩
  haveI : IsTrans ℕ R := ⟨fun a b c hab hbc => le_trans hab hbc⟩
  have hperm := List.perm_insertionSort R (List.range Xtr.length)
  have hsorted := List.sorted_insertionSort R (List.range Xtr.length)
  have hslen : (List.insertionSort R (List.range Xtr.length)).length = Xtr.length := by
    rw [hperm.length_eq, List.length_range]
  have hdsget : ∀ m (hm : m < Xtr.length),
      (Xtr.map (fun r => sqDistL (Xtr[n]) r)).getD m 0 = sqDistL (Xtr[n]) (Xtr[m]) := by
    intro m hm
    have hm' : m < (Xtr.map (fun r => sqDistL (Xtr[n]) r)).length := by
      rw [List.length_map]
      exact hm
    rw [List.getD_eq_getElem _ _ hm', List.getElem_map]
  cases hS : List.insertionSort R (List.range Xtr.length) with
  | nil =>
    rw [hS] at hslen
    exact absurd hslen.symm (Nat.pos_iff_ne_zero.mp (lt_of_le_of_lt (Nat.zero_le n) h1))
  | cons hd rest =>
    have hhd : hd < Xtr.length := by
      have hmem : hd ∈ List.range Xtr.length := by
        rw [← hperm.mem_iff, hS]
        exact List.mem_cons_self hd rest
      exact List.mem_range.mp hmem
    have hhdle : R hd n := by
      have hn : n ∈ List.range Xtr.length := List.mem_range.mpr h1
      rw [← hperm.mem_iff, hS] at hn
      rcases List.mem_cons.mp hn with rfl | hn'
      · exact le_refl _
      · rw [hS] at hsorted
        exact List.rel_of_sorted_cons hsorted n hn'
    have hzero : sqDistL (Xtr[n]) (Xtr[hd]) = 0 := by
      refine le_antisymm ?_ (sqDistL_nonneg _ _)
      have h' : (Xtr.map (fun r => sqDistL (Xtr[n]) r)).getD hd 0
          ≤ (Xtr.map (fun r => sqDistL (Xtr[n]) r)).getD n 0 := hhdle
      rw [hdsget hd hhd, hdsget n h1, sqDistL_self] at h'
      exact h'
    have hEq : n = hd := by
      have hXeq : Xtr[n] = Xtr[hd] :=
        eq_of_sqDistL_eq_zero d _ _ (hrect _ (List.getElem_mem h1))
          (hrect _ (List.getElem_mem hhd)) hzero
      exact (List.Nodup.getElem_inj_iff hnd).mp hXeq
    refine ⟨rest, ?_⟩
    have hgoal : List.insertionSort R (List.range Xtr.length) = n :: rest := by
      rw [hS, hEq]
    exact hgoal

/-- C10 (amended): when the training rows are pairwise distinct (and of
one common width), a 1-nearest-neighbor classifier queried on its own
training matrix reproduces the training labels exactly: each row's unique
zero-distance neighbor is itself, so the first index of the distance sort
is the row's own index regardless of how the sort orders ties, and the
majority vote over that single label returns it.  (With duplicated rows
carrying different labels this fails — see
`knn_duplicate_rows_not_reproduced` — which also makes the claim's
appeal to a stable tie-break moot: `np.argsort`'s default kind is not a
stable sort, but no tie can reach the selected index here.) -/
theorem knn_k1_training_reproduces_labels (Xtr : List (List ℚ)) (ytr : List ℚ)
    (d : ℕ) (hlen : ytr.length = Xtr.length) (hrect : ∀ r ∈ Xtr, r.length = d)
    (hnd : Xtr.Nodup) : knnPredict 1 Xtr ytr Xtr = ytr := by
  refine List.ext_getElem (by simp only [knnPredict, List.length_map, hlen]) ?_
  intro n h1 h2
  simp only [knnPredict, List.length_map] at h1
  simp only [knnPredict, List.getElem_map, knnPredictOne]
  obtain ⟨rest, hS⟩ := knnOrder_head_self Xtr d n h1 hrect hnd
  rw [hS, List.take_succ_cons, List.take_zero, List.map_cons, List.map_nil,
    knnVote_single, List.getD_eq_getElem _ _ h2]

/-- Witness for `knn_k1_training_reproduces_labels` at the distinct
training rows [[0], [1]] with labels [3, 4]. -/
theorem knn_k1_training_reproduces_labels_witness :
    knnPredict 1 [[0], [1]] [3, 4] [[0], [1]] = [3, 4] := by
  refine knn_k1_training_reproduces_labels [[0], [1]] [3, 4] 1 rfl ?_ ?_
  · intro r hr
    fin_cases hr <;> rfl
  · norm_num

/- ### AGNES (src/algorithms.py lines 96-146) -/

/-- `AGNES._calculate_cluster_distance` (lines 134-146), parametrized by the
point distance `pdist` (the source fixes it to the Euclidean norm of the row
difference; every property proved below holds for an arbitrary `pdist`, and
the concrete witnesses use one-dimensional data, where the norm is
`|x - y|`).  The pairwise distance matrix is computed first; then the
linkage string is dispatched, and an unknown linkage raises
`ValueError("Unknown linkage")`. -/
def clusterDist (pdist : ℕ → ℕ → ℚ) (linkage : String) (c1 c2 : List ℕ) :
    Except String ℚ :=
  let ds := c1.flatMap (fun i => c2.map (fun j => pdist i j))
  if linkage = "single" then .ok (listMin ds)
  else if linkage = "complete" then .ok (listMax ds)
  else if linkage = "average" then .ok (ds.sum / ds.length)
  else .error "Unknown linkage"

/-- The pair enumeration of the scan in `AGNES.fit` (lines 114-115): all
`(i, j)` with `i < j < m`, `i` outer and ascending. -/
def allPairs (m : ℕ) : List (ℕ × ℕ) :=
  (List.range m).flatMap (fun i => ((List.range m).drop (i + 1)).map (fun j => (i, j)))

/-- One step of the minimum-distance pair scan (lines 116-119): compute the
distance of the pair (propagating the `ValueError` of an unknown linkage)
and keep the incumbent unless strictly improved, so the first pair
attaining the minimum wins (`min_dist` starts at infinity, hence the
`none` accumulator always updates). -/
def bestPairStep (pdist : ℕ → ℕ → ℚ) (linkage : String) (cs : List (List ℕ)) :
    Option ((ℕ × ℕ) × ℚ) → ℕ × ℕ → Except String (Option ((ℕ × ℕ) × ℚ))
  | none, p =>
      match clusterDist pdist linkage (cs.getD p.1 []) (cs.getD p.2 []) with
      | .error e => .error e
      | .ok dv => .ok (some (p, dv))
  | some (q, dq), p =>
      match clusterDist pdist linkage (cs.getD p.1 []) (cs.getD p.2 []) with
      | .error e => .error e
      | .ok dv => if dv < dq then .ok (some (p, dv)) else .ok (some (q, dq))

/-- The pair scan of `AGNES.fit` (lines 109-119) over all pairs in order. -/
def bestPair (pdist : ℕ → ℕ → ℚ) (linkage : String) (cs : List (List ℕ)) :
    Except String (Option ((ℕ × ℕ) × ℚ)) :=
  (allPairs cs.length).foldlM (bestPairStep pdist linkage cs) none

/-- The merge (lines 124-125): `clusters[i].extend(clusters[j])`, then
`clusters.pop(j)`. -/
def mergeAt (cs : List (List ℕ)) (i j : ℕ) : List (List ℕ) :=
  (cs.set i (cs.getD i [] ++ cs.getD j [])).eraseIdx j

/-- The merging loop of `AGNES.fit` (lines 108-125) with explicit fuel;
each iteration removes one cluster, so `n` units of fuel always reach the
loop's own exit condition. -/
def agnesLoop (pdist : ℕ → ℕ → ℚ) (linkage : String) (k : ℕ) :
    ℕ → List (List ℕ) → Except String (List (List ℕ))
  | 0, cs => .ok cs
  | fuel + 1, cs =>
      if cs.length ≤ k then .ok cs
      else
        match bestPair pdist linkage cs with
        | .error e => .error e
        | .ok none => .ok cs
        | .ok (some (p, _)) => agnesLoop pdist linkage k fuel (mergeAt cs p.1 p.2)

/-- The cluster partition produced by `AGNES.fit(X)` (lines 102-125),
starting from the `n` singleton clusters. -/
def agnesClusters (pdist : ℕ → ℕ → ℚ) (linkage : String) (k n : ℕ) :
    Except String (List (List ℕ)) :=
  agnesLoop pdist linkage k n ((List.range n).map (fun i => [i]))

/-- The final relabelling loop (lines 127-130): `labels[idx] = cluster_id`
for each cluster in order, on top of `np.zeros(n_samples)`. -/
def labelsOfClusters : List (List ℕ) → ℕ → (ℕ → ℕ) → (ℕ → ℕ)
  | [], _, lab => lab
  | c :: rest, cid, lab =>
      labelsOfClusters rest (cid + 1) (c.foldl (fun l idx => Function.update l idx cid) lab)

/-- `AGNES.fit(X)` (lines 102-132): the label vector of the final
partition. -/
def agnesFit (pdist : ℕ → ℕ → ℚ) (linkage : String) (k n : ℕ) :
    Except String (List ℕ) :=
  (agnesClusters pdist linkage k n).map
    (fun cs => (List.range n).map (labelsOfClusters cs 0 (fun _ => 0)))

/-- C6 counterexample: the claim says an unknown linkage raises for
**every** input matrix.  But the linkage is only consulted inside the merge
loop, and with fewer samples than `k` the loop body never runs: on a 2-row
matrix with the default `k = 3` and the invalid linkage `"ward"`,
`AGNES.fit` silently returns the label vector [0, 1]. -/
theorem agnes_unknown_linkage_small_input_returns_labels :
    agnesFit (fun i j => ratAbs (([0, 1] : List ℚ).getD i 0 - ([0, 1] : List ℚ).getD j 0))
        "ward" 3 2 = .ok [0, 1] ∧
    ("ward" : String) ∉ (["single", "complete", "average"] : List String) := by
  constructor
  · simp [agnesFit, agnesClusters, agnesLoop, labelsOfClusters, List.range_succ,
      Function.update, Except.map]
  · decide

theorem bestPair_unknown_linkage (pdist : ℕ → ℕ → ℚ) (linkage : String)
    (cs : List (List ℕ)) (h2 : 2 ≤ cs.length) (hl1 : linkage ≠ "single")
    (hl2 : linkage ≠ "complete") (hl3 : linkage ≠ "average") :
    bestPair pdist linkage cs = .error "Unknown linkage" := by
  have hcd : ∀ c1 c2, clusterDist pdist linkage c1 c2 = .error "Unknown linkage" := by
    intro c1 c2
    simp only [clusterDist, if_neg hl1, if_neg hl2, if_neg hl3]
  have hmem : ((0 : ℕ), (1 : ℕ)) ∈ allPairs cs.length := by
    simp only [allPairs, List.mem_flatMap]
    refine ⟨0, List.mem_range.mpr (lt_of_lt_of_le zero_lt_two h2), ?_⟩
    simp only [List.mem_map]
    refine ⟨1, ?_, rfl⟩
    obtain ⟨m, hm⟩ : ∃ m, cs.length = m + 2 := ⟨cs.length - 2, by omega⟩
    rw [hm, List.range_succ_eq_map, List.drop_succ_cons, List.drop_zero]
    exact List.mem_map.mpr ⟨0, List.mem_range.mpr (Nat.succ_pos m), rfl⟩
  cases hap : allPairs cs.length with
  | nil =>
    rw [hap] at hmem
    cases hmem
  | cons p rest =>
    rw [bestPair, hap, List.foldlM_cons]
    simp only [bestPairStep, hcd]
    rfl

/-- C6 (amended): with at least two samples and `k < N` (so that the merge
loop runs and evaluates at least one cluster distance), `AGNES.fit` with a
linkage other than `single`, `complete` or `average` propagates the
`ValueError("Unknown linkage")` instead of returning a label vector; on
inputs where the loop never runs (`N ≤ k` or `N < 2`) no error is raised
(see `agnes_unknown_linkage_small_input_returns_labels`). -/
theorem agnes_unknown_linkage_raises (pdist : ℕ → ℕ → ℚ) (linkage : String)
    (k n : ℕ) (hn : 2 ≤ n) (hk : k < n) (hl1 : linkage ≠ "single")
    (hl2 : linkage ≠ "complete") (hl3 : linkage ≠ "average") :
    agnesFit pdist linkage k n = .error "Unknown linkage" := by
  have hlen : ((List.range n).map (fun i : ℕ => [i])).length = n := by
    simp
  have hfe : agnesClusters pdist linkage k n = .error "Unknown linkage" := by
    rw [agnesClusters]
    obtain ⟨f, hf⟩ : ∃ f, n = f + 1 := ⟨n - 1, by omega⟩
    conv_lhs => rw [hf]
    simp only [agnesLoop]
    rw [if_neg (by simp only [List.length_map, List.length_range]; omega)]
    rw [bestPair_unknown_linkage pdist linkage _
      (by simp only [List.length_map, List.length_range]; omega) hl1 hl2 hl3]
  rw [agnesFit, hfe]
  rfl

/-- Witness for `agnes_unknown_linkage_raises`: 2 one-dimensional samples,
`k = 1`, linkage `"ward"`. -/
theorem agnes_unknown_linkage_raises_witness :
    agnesFit (fun i j => ratAbs (([0, 1] : List ℚ).getD i 0 - ([0, 1] : List ℚ).getD j 0))
      "ward" 1 2 = .error "Unknown linkage" :=
  agnes_unknown_linkage_raises _ "ward" 1 2 (by norm_num) (by norm_num)
    (by decide) (by decide) (by decide)

/- ### AGNES: partition invariants (C8) -/

theorem mem_drop_range (m t j : ℕ) (h : j ∈ (List.range m).drop t) :
    t ≤ j ∧ j < m := by
  have hj : j < m := List.mem_range.mp (List.mem_of_mem_drop h)
  rw [List.mem_drop_iff_getElem] at h
  obtain ⟨i, hi, he⟩ := h
  have hr := List.getElem_range (n := m) (t + i)
    (by simp only [List.length_drop, List.length_range] at hi; omega)
  rw [hr] at he
  omega

theorem allPairs_valid (m : ℕ) : ∀ p ∈ allPairs m, p.1 < p.2 ∧ p.2 < m := by
  intro p hp
  simp only [allPairs, List.mem_flatMap] at hp
  obtain ⟨i, _, hp2⟩ := hp
  simp only [List.mem_map] at hp2
  obtain ⟨j, hj, rfl⟩ := hp2
  obtain ⟨h1, h2⟩ := mem_drop_range m (i + 1) j hj
  exact ⟨by omega, h2⟩

/-- The result of the pair scan, when it succeeds with a pair, is a valid
index pair `i < j < |clusters|`. -/
theorem bestPair_valid (pdist : ℕ → ℕ → ℚ) (linkage : String)
    (cs : List (List ℕ)) (p : ℕ × ℕ) (dv : ℚ)
    (h : bestPair pdist linkage cs = .ok (some (p, dv))) :
    p.1 < p.2 ∧ p.2 < cs.length := by
  rw [bestPair] at h
  have hgen : ∀ (l : List (ℕ × ℕ)) (acc r : Option ((ℕ × ℕ) × ℚ)),
      (∀ q ∈ l, q.1 < q.2 ∧ q.2 < cs.length) →
      (∀ q dq, acc = some (q, dq) → q.1 < q.2 ∧ q.2 < cs.length) →
      l.foldlM (bestPairStep pdist linkage cs) acc = .ok r →
      (∀ q dq, r = some (q, dq) → q.1 < q.2 ∧ q.2 < cs.length) := by
    intro l
    induction l with
    | nil =>
      intro acc r _ hacc hr
      cases hr
      exact hacc
    | cons x l ih =>
      intro acc r hl hacc hr
      rw [List.foldlM_cons] at hr
      have hx := hl x (List.mem_cons_self x l)
      have hl' := fun q hq => hl q (List.mem_cons_of_mem x hq)
      cases acc with
      | none =>
        cases hcd : clusterDist pdist linkage (cs.getD x.1 []) (cs.getD x.2 []) with
        | error e =>
          simp only [bestPairStep, hcd] at hr
          cases hr
        | ok dv' =>
          simp only [bestPairStep, hcd] at hr
          refine ih _ r hl' ?_ hr
          intro q dq hq
          simp only [Option.some.injEq, Prod.mk.injEq] at hq
          obtain ⟨⟨rfl, _⟩, _⟩ := hq
          exact hx
      | some a =>
        obtain ⟨q0, dq0⟩ := a
        cases hcd : clusterDist pdist linkage (cs.getD x.1 []) (cs.getD x.2 []) with
        | error e =>
          simp only [bestPairStep, hcd] at hr
          cases hr
        | ok dv' =>
          simp only [bestPairStep, hcd] at hr
          by_cases hlt : dv' < dq0
          · rw [if_pos hlt] at hr
            refine ih _ r hl' ?_ hr
            intro q dq hq
            simp only [Option.some.injEq, Prod.mk.injEq] at hq
            obtain ⟨⟨rfl, _⟩, _⟩ := hq
            exact hx
          · rw [if_neg hlt] at hr
            refine ih _ r hl' ?_ hr
            intro q dq hq
            simp only [Option.some.injEq, Prod.mk.injEq] at hq
            obtain ⟨⟨rfl, _⟩, _⟩ := hq
            exact hacc q0 dq0 rfl
  exact hgen (allPairs cs.length) none (some (p, dv)) (allPairs_valid cs.length)
    (by intro q dq hq; cases hq) h p dv rfl

/-- With at least two clusters and every distance computation succeeding,
the pair scan cannot return `none`: the first pair always replaces the
infinite initial distance. -/
theorem bestPair_ok_ne_none (pdist : ℕ → ℕ → ℚ) (linkage : String)
    (cs : List (List ℕ)) (h2 : 2 ≤ cs.length)
    (h : bestPair pdist linkage cs = .ok none) : False := by
  rw [bestPair] at h
  have hgen : ∀ (l : List (ℕ × ℕ)) (acc : Option ((ℕ × ℕ) × ℚ)),
      (l ≠ [] ∨ acc ≠ none) →
      l.foldlM (bestPairStep pdist linkage cs) acc = .ok none → False := by
    intro l
    induction l with
    | nil =>
      intro acc hne hr
      cases hr
      rcases hne with hne | hne
      · exact hne rfl
      · exact hne rfl
    | cons x l ih =>
      intro acc _ hr
      rw [List.foldlM_cons] at hr
      cases acc with
      | none =>
        cases hcd : clusterDist pdist linkage (cs.getD x.1 []) (cs.getD x.2 []) with
        | error e =>
          simp only [bestPairStep, hcd] at hr
          cases hr
        | ok dv' =>
          simp only [bestPairStep, hcd] at hr
          exact ih _ (Or.inr (by simp)) hr
      | some a =>
        obtain ⟨q0, dq0⟩ := a
        cases hcd : clusterDist pdist linkage (cs.getD x.1 []) (cs.getD x.2 []) with
        | error e =>
          simp only [bestPairStep, hcd] at hr
          cases hr
        | ok dv' =>
          simp only [bestPairStep, hcd] at hr
          by_cases hlt : dv' < dq0
          · rw [if_pos hlt] at hr
            exact ih _ (Or.inr (by simp)) hr
          · rw [if_neg hlt] at hr
            exact ih _ (Or.inr (by simp)) hr
  refine hgen (allPairs cs.length) none (Or.inl ?_) h
  intro hnil
  have hmem : ((0 : ℕ), (1 : ℕ)) ∈ allPairs cs.length := by
    simp only [allPairs, List.mem_flatMap]
    refine ⟨0, List.mem_range.mpr (lt_of_lt_of_le zero_lt_two h2), ?_⟩
    simp only [List.mem_map]
    refine ⟨1, ?_, rfl⟩
    obtain ⟨m, hm⟩ : ∃ m, cs.length = m + 2 := ⟨cs.length - 2, by omega⟩
    rw [hm, List.range_succ_eq_map, List.drop_succ_cons, List.drop_zero]
    exact List.mem_map.mpr ⟨0, List.mem_range.mpr (Nat.succ_pos m), rfl⟩
  rw [hnil] at hmem
  cases hmem
theorem getD_cons_flatten_eraseIdx_perm :
    ∀ (l : List (List ℕ)) (j : ℕ), j < l.length →
      List.Perm (l.getD j [] ++ (l.eraseIdx j).flatten) l.flatten := by
  intro l
  induction l with
  | nil => intro j hj; simp at hj
  | cons x l ih =>
    intro j hj
    cases j with
    | zero =>
      simp only [List.getD_cons_zero, List.eraseIdx_cons_zero, List.flatten_cons]
      exact List.Perm.refl _
    | succ j' =>
      have hj' : j' < l.length := by simpa using hj
      simp only [List.getD_cons_succ, List.eraseIdx_cons_succ, List.flatten_cons]
      exact (List.perm_append_comm_assoc _ _ _).trans ((ih j' hj').append_left x)

theorem mergeAt_flatten_perm :
    ∀ (cs : List (List ℕ)) (i j : ℕ), i < j → j < cs.length →
      List.Perm (mergeAt cs i j).flatten cs.flatten := by
  intro cs
  induction cs with
  | nil => intro i j _ hj; simp at hj
  | cons c cs ih =>
    intro i j hij hj
    cases i with
    | zero =>
      cases j with
      | zero => exact absurd hij (lt_irrefl 0)
      | succ j' =>
        have hj' : j' < cs.length := by simpa using hj
        simp only [mergeAt, List.getD_cons_zero, List.getD_cons_succ,
          List.set_cons_zero, List.eraseIdx_cons_succ, List.flatten_cons,
          List.append_assoc]
        exact (getD_cons_flatten_eraseIdx_perm cs j' hj').append_left c
    | succ i' =>
      cases j with
      | zero => exact absurd hij (Nat.not_lt_zero _)
      | succ j' =>
        have hij' : i' < j' := by omega
        have hj' : j' < cs.length := by simpa using hj
        simp only [mergeAt, List.getD_cons_succ, List.set_cons_succ,
          List.eraseIdx_cons_succ, List.flatten_cons]
        exact (ih i' j' hij' hj').append_left c

theorem mergeAt_ne_nil (cs : List (List ℕ)) (i j : ℕ) (hij : i < j)
    (hj : j < cs.length) (hne : ∀ c ∈ cs, c ≠ []) :
    ∀ c ∈ mergeAt cs i j, c ≠ [] := by
  intro c hc
  have hc1 := List.mem_of_mem_eraseIdx hc
  rcases List.mem_or_eq_of_mem_set hc1 with h | h
  · exact hne c h
  · have hi : i < cs.length := lt_trans hij hj
    have hmem : cs.getD i [] ∈ cs := by
      rw [List.getD_eq_getElem cs [] hi]
      exact List.getElem_mem hi
    have h1 := hne _ hmem
    rw [h]
    intro habs
    exact h1 (List.append_eq_nil.mp habs).1

theorem mergeAt_length (cs : List (List ℕ)) (i j : ℕ) (hj : j < cs.length) :
    (mergeAt cs i j).length = cs.length - 1 := by
  rw [mergeAt, List.length_eraseIdx_of_lt (by rwa [List.length_set]), List.length_set]

theorem agnesLoop_ok (pdist : ℕ → ℕ → ℚ) (linkage : String) (k : ℕ) (hk : 1 ≤ k) :
    ∀ (fuel : ℕ) (cs rcs : List (List ℕ)),
      cs.length ≤ fuel + k → (∀ c ∈ cs, c ≠ []) →
      agnesLoop pdist linkage k fuel cs = .ok rcs →
      List.Perm rcs.flatten cs.flatten ∧ (∀ c ∈ rcs, c ≠ []) ∧
        rcs.length = min k cs.length := by
  intro fuel
  induction fuel with
  | zero =>
    intro cs rcs hfl hne h
    cases h
    exact ⟨List.Perm.refl _, hne, (min_eq_right (by omega)).symm⟩
  | succ fuel ih =>
    intro cs rcs hfl hne h
    simp only [agnesLoop] at h
    by_cases hle : cs.length ≤ k
    · rw [if_pos hle] at h
      cases h
      exact ⟨List.Perm.refl _, hne, (min_eq_right hle).symm⟩
    · rw [if_neg hle] at h
      have hgt : k < cs.length := Nat.lt_of_not_le hle
      cases hbp : bestPair pdist linkage cs with
      | error e => rw [hbp] at h; cases h
      | ok o =>
        rw [hbp] at h
        cases o with
        | none => exact (bestPair_ok_ne_none pdist linkage cs (by omega) hbp).elim
        | some pd =>
          obtain ⟨p, d⟩ := pd
          obtain ⟨hpj, hjlen⟩ := bestPair_valid pdist linkage cs p d hbp
          have hml := mergeAt_length cs p.1 p.2 hjlen
          obtain ⟨ih1, ih2, ih3⟩ := ih (mergeAt cs p.1 p.2) rcs (by omega)
            (mergeAt_ne_nil cs p.1 p.2 hpj hjlen hne) h
          refine ⟨ih1.trans (mergeAt_flatten_perm cs p.1 p.2 hpj hjlen), ih2, ?_⟩
          rw [ih3, hml, min_eq_left (by omega), min_eq_left (by omega)]

theorem flatten_map_singleton : ∀ (l : List ℕ), (l.map (fun i => [i])).flatten = l := by
  intro l
  induction l with
  | nil => rfl
  | cons x xs ih => simp only [List.map_cons, List.flatten_cons, ih]; rfl

theorem agnesClusters_partition (pdist : ℕ → ℕ → ℚ) (linkage : String) (k n : ℕ)
    (hk : 1 ≤ k) (rcs : List (List ℕ))
    (h : agnesClusters pdist linkage k n = .ok rcs) :
    List.Perm rcs.flatten (List.range n) ∧ (∀ c ∈ rcs, c ≠ []) ∧
      rcs.length = min k n := by
  have hlen : ((List.range n).map (fun i => [i])).length = n := by simp
  have hne : ∀ c ∈ (List.range n).map (fun i => ([i] : List ℕ)), c ≠ [] := by
    intro c hc
    obtain ⟨i, _, rfl⟩ := List.mem_map.mp hc
    simp
  obtain ⟨h1, h2, h3⟩ := agnesLoop_ok pdist linkage k hk n _ rcs (by omega) hne h
  rw [flatten_map_singleton] at h1
  rw [hlen] at h3
  exact ⟨h1, h2, h3⟩
/- ### DIANA (lines 149-244) -/

/-- `DIANA._calculate_diameter` (lines 189-194): 0 for clusters of fewer
than two points, else the maximum pairwise distance (the matrix includes
the zero diagonal). -/
def diameterD (pdist : ℕ → ℕ → ℚ) (c : List ℕ) : ℚ :=
  if c.length < 2 then 0
  else listMax (c.flatMap (fun i => c.map (fun j => pdist i j)))

/-- `np.mean(np.linalg.norm(X[idx] - X[others], axis=1))`: the average
distance from `idx` to the points of `others` (the source only evaluates it
on nonempty `others`; on `[]` the model's division by zero yields 0). -/
def avgDist (pdist : ℕ → ℕ → ℚ) (idx : ℕ) (others : List ℕ) : ℚ :=
  (others.map (pdist idx)).sum / others.length

/-- The diameter scan of `DIANA.fit` (lines 161-170): fold over the
enumerated clusters, skipping clusters of fewer than two points, tracking
`(max_diameter, split_idx)` from `(-1, -1)` with strict improvement. -/
def dianaSelect (pdist : ℕ → ℕ → ℚ) (cs : List (List ℕ)) : ℚ × ℤ :=
  cs.enum.foldl
    (fun acc ic =>
      if ic.2.length < 2 then acc
      else
        if diameterD pdist ic.2 > acc.1 then (diameterD pdist ic.2, (ic.1 : ℤ)) else acc)
    (-1, -1)

/-- The initial-splinter scan of `DIANA._split_cluster` (lines 200-210):
the element of `B` with maximal average distance to the others, `none`
standing for the source's `-1` sentinel (indices are nonnegative, so the
sentinel is unambiguous). -/
def dianaInitSplinter (pdist : ℕ → ℕ → ℚ) (B : List ℕ) : ℚ × Option ℕ :=
  B.foldl
    (fun acc idx =>
      if B.erase idx = [] then acc
      else
        if avgDist pdist idx (B.erase idx) > acc.1 then (avgDist pdist idx (B.erase idx), some idx)
        else acc)
    (-1, none)

/-- The move-candidate scan (lines 219-236): for each point of `B`, the
value `dist_to_B - dist_to_A` (0 standing in for the mean over an empty
rest of `B`), maximised with strict improvement from `-inf` (modelled by
the `none` accumulator, which any first element replaces). -/
def dianaMoveCandidate (pdist : ℕ → ℕ → ℚ) (A B : List ℕ) : Option (ℚ × ℕ) :=
  B.foldl
    (fun acc idx =>
      let dB := if B.erase idx = [] then 0 else avgDist pdist idx (B.erase idx)
      let val := dB - avgDist pdist idx A
      match acc with
      | none => some (val, idx)
      | some md => if val > md.1 then some (val, idx) else acc)
    none

/-- The `while True` move loop (lines 218-242): move the candidate from
`B` to `A` while its value is positive; each move shrinks `B`, so
`|B|` units of fuel always reach the loop's own `break`. -/
def dianaSplitLoop (pdist : ℕ → ℕ → ℚ) : ℕ → List ℕ → List ℕ → List ℕ × List ℕ
  | 0, A, B => (A, B)
  | fuel + 1, A, B =>
      match dianaMoveCandidate pdist A B with
      | none => (A, B)
      | some md =>
          if 0 < md.1 then dianaSplitLoop pdist fuel (A ++ [md.2]) (B.erase md.2)
          else (A, B)

/-- `DIANA._split_cluster` (lines 196-244): seed the splinter set `A` with
the initial splinter (if any; else return `([], indices)` as the source
does), then run the move loop.  Returns `(A, B)` = (splinter, remainder). -/
def dianaSplit (pdist : ℕ → ℕ → ℚ) (c : List ℕ) : List ℕ × List ℕ :=
  match (dianaInitSplinter pdist c).2 with
  | none => ([], c)
  | some s => dianaSplitLoop pdist c.length [s] (c.erase s)

/-- One iteration of the main loop of `DIANA.fit` (lines 160-180): pick the
cluster of maximal diameter (`none` = the `split_idx == -1` break), split
it, pop it and append the remainder then the splinter. -/
def dianaStep (pdist : ℕ → ℕ → ℚ) (cs : List (List ℕ)) : Option (List (List ℕ)) :=
  if (dianaSelect pdist cs).2 = -1 then none
  else
    some ((cs.eraseIdx (dianaSelect pdist cs).2.toNat) ++
      [(dianaSplit pdist (cs.getD (dianaSelect pdist cs).2.toNat [])).2,
       (dianaSplit pdist (cs.getD (dianaSelect pdist cs).2.toNat [])).1])

/-- The `while len(clusters) < k` loop (lines 160-180) with explicit fuel;
each iteration adds one cluster, so `k` units of fuel always reach the
loop's exit. -/
def dianaLoop (pdist : ℕ → ℕ → ℚ) (k : ℕ) : ℕ → List (List ℕ) → List (List ℕ)
  | 0, cs => cs
  | fuel + 1, cs =>
      if cs.length < k then
        match dianaStep pdist cs with
        | none => cs
        | some cs' => dianaLoop pdist k fuel cs'
      else cs

/-- The cluster partition produced by `DIANA.fit(X)` (lines 154-180),
starting from the single cluster of all `n` indices. -/
def dianaClusters (pdist : ℕ → ℕ → ℚ) (k n : ℕ) : List (List ℕ) :=
  dianaLoop pdist k k [List.range n]
theorem avgDist_nonneg (pdist : ℕ → ℕ → ℚ) (hpd : ∀ i j, 0 ≤ pdist i j)
    (idx : ℕ) (others : List ℕ) : 0 ≤ avgDist pdist idx others := by
  rw [avgDist]
  apply div_nonneg
  · apply List.sum_nonneg
    intro q hq
    obtain ⟨j, _, rfl⟩ := List.mem_map.mp hq
    exact hpd idx j
  · exact_mod_cast Nat.zero_le _

theorem dianaMoveCandidate_mem (pdist : ℕ → ℕ → ℚ) (A B : List ℕ) (md : ℚ × ℕ)
    (h : dianaMoveCandidate pdist A B = some md) : md.2 ∈ B := by
  rw [dianaMoveCandidate] at h
  have hgen : ∀ (l : List ℕ) (acc : Option (ℚ × ℕ)),
      (∀ x ∈ l, x ∈ B) → (∀ md', acc = some md' → md'.2 ∈ B) →
      l.foldl
        (fun acc idx =>
          let dB := if B.erase idx = [] then 0 else avgDist pdist idx (B.erase idx)
          let val := dB - avgDist pdist idx A
          match acc with
          | none => some (val, idx)
          | some md => if val > md.1 then some (val, idx) else acc)
        acc = some md → md.2 ∈ B := by
    intro l
    induction l with
    | nil =>
      intro acc _ hacc hf
      exact hacc md hf
    | cons x l ih =>
      intro acc hl hacc hf
      rw [List.foldl_cons] at hf
      refine ih _ (fun y hy => hl y (List.mem_cons_of_mem x hy)) ?_ hf
      intro md' hmd'
      have hxB := hl x (List.mem_cons_self x l)
      cases acc with
      | none =>
        simp only [Option.some.injEq] at hmd'
        rw [← hmd']
        exact hxB
      | some md0 =>
        simp only at hmd'
        by_cases hv : (if B.erase x = [] then 0 else avgDist pdist x (B.erase x)) -
            avgDist pdist x A > md0.1
        · rw [if_pos hv] at hmd'
          simp only [Option.some.injEq] at hmd'
          rw [← hmd']
          exact hxB
        · rw [if_neg hv] at hmd'
          exact hacc md' hmd'
  exact hgen B none (fun x hx => hx) (fun md' h' => by cases h') h

theorem dianaMoveCandidate_singleton (pdist : ℕ → ℕ → ℚ) (A : List ℕ) (c : ℕ) :
    dianaMoveCandidate pdist A [c] = some (0 - avgDist pdist c A, c) := by
  rw [dianaMoveCandidate]
  simp [List.erase_cons_head]

theorem dianaSplitLoop_spec (pdist : ℕ → ℕ → ℚ) (hpd : ∀ i j, 0 ≤ pdist i j) :
    ∀ (fuel : ℕ) (A B : List ℕ), A ≠ [] → B ≠ [] →
      List.Perm ((dianaSplitLoop pdist fuel A B).1 ++ (dianaSplitLoop pdist fuel A B).2)
        (A ++ B) ∧
      (dianaSplitLoop pdist fuel A B).1 ≠ [] ∧ (dianaSplitLoop pdist fuel A B).2 ≠ [] := by
  intro fuel
  induction fuel with
  | zero =>
    intro A B hA hB
    exact ⟨List.Perm.refl _, hA, hB⟩
  | succ fuel ih =>
    intro A B hA hB
    cases hmc : dianaMoveCandidate pdist A B with
    | none =>
      simp only [dianaSplitLoop, hmc]
      exact ⟨List.Perm.refl _, hA, hB⟩
    | some md =>
      by_cases hpos : 0 < md.1
      · have hcB := dianaMoveCandidate_mem pdist A B md hmc
        have herase : B.erase md.2 ≠ [] := by
          intro hemp
          have hlen : B.length = 1 := by
            have h1 := List.length_erase_of_mem hcB
            rw [hemp] at h1
            have h2 := List.length_pos.mpr hB
            simp at h1
            omega
          obtain ⟨b, rfl⟩ := List.length_eq_one.mp hlen
          rw [dianaMoveCandidate_singleton] at hmc
          simp only [Option.some.injEq] at hmc
          have : md.1 = 0 - avgDist pdist b A := by rw [← hmc]
          rw [this] at hpos
          have := avgDist_nonneg pdist hpd b A
          linarith
        simp only [dianaSplitLoop, hmc, if_pos hpos]
        obtain ⟨ih1, ih2, ih3⟩ := ih (A ++ [md.2]) (B.erase md.2) (by simp) herase
        refine ⟨ih1.trans ?_, ih2, ih3⟩
        rw [List.append_assoc]
        refine List.Perm.append_left A ?_
        exact List.perm_cons_erase hcB |>.symm
      · simp only [dianaSplitLoop, hmc, if_neg hpos]
        exact ⟨List.Perm.refl _, hA, hB⟩

theorem dianaInitSplinter_mem (pdist : ℕ → ℕ → ℚ) (B : List ℕ) (s : ℕ)
    (h : (dianaInitSplinter pdist B).2 = some s) : s ∈ B := by
  rw [dianaInitSplinter] at h
  have hgen : ∀ (l : List ℕ) (acc : ℚ × Option ℕ),
      (∀ x ∈ l, x ∈ B) → (∀ s', acc.2 = some s' → s' ∈ B) →
      (l.foldl
        (fun acc idx =>
          if B.erase idx = [] then acc
          else
            if avgDist pdist idx (B.erase idx) > acc.1 then
              (avgDist pdist idx (B.erase idx), some idx)
            else acc)
        acc).2 = some s → s ∈ B := by
    intro l
    induction l with
    | nil =>
      intro acc _ hacc hf
      exact hacc s hf
    | cons x l ih =>
      intro acc hl hacc hf
      rw [List.foldl_cons] at hf
      refine ih _ (fun y hy => hl y (List.mem_cons_of_mem x hy)) ?_ hf
      intro s' hs'
      have hxB := hl x (List.mem_cons_self x l)
      by_cases he : B.erase x = []
      · rw [if_pos he] at hs'
        exact hacc s' hs'
      · rw [if_neg he] at hs'
        by_cases hv : avgDist pdist x (B.erase x) > acc.1
        · rw [if_pos hv] at hs'
          simp only [Option.some.injEq] at hs'
          rw [← hs']
          exact hxB
        · rw [if_neg hv] at hs'
          exact hacc s' hs'
  exact hgen B (-1, none) (fun x hx => hx) (fun s' h' => by cases h') h

theorem dianaInitSplinter_some (pdist : ℕ → ℕ → ℚ) (hpd : ∀ i j, 0 ≤ pdist i j)
    (c : List ℕ) (hc : 2 ≤ c.length) :
    ∃ s, (dianaInitSplinter pdist c).2 = some s := by
  have hgen : ∀ (l : List ℕ) (acc : ℚ × Option ℕ),
      (acc.2 = none → acc.1 = -1) →
      (l.foldl
        (fun acc idx =>
          if c.erase idx = [] then acc
          else
            if avgDist pdist idx (c.erase idx) > acc.1 then
              (avgDist pdist idx (c.erase idx), some idx)
            else acc)
        acc).2 = none →
      acc.2 = none ∧ ∀ x ∈ l, c.erase x = [] := by
    intro l
    induction l with
    | nil =>
      intro acc _ hf
      exact ⟨hf, fun x hx => absurd hx (List.not_mem_nil x)⟩
    | cons x l ih =>
      intro acc hinv hf
      rw [List.foldl_cons] at hf
      by_cases he : c.erase x = []
      · rw [if_pos he] at hf
        obtain ⟨h1, h2⟩ := ih acc hinv hf
        exact ⟨h1, fun y hy => by
          rcases List.mem_cons.mp hy with rfl | hy'
          · exact he
          · exact h2 y hy'⟩
      · rw [if_neg he] at hf
        by_cases hv : avgDist pdist x (c.erase x) > acc.1
        · rw [if_pos hv] at hf
          obtain ⟨h1, _⟩ := ih _ (fun habs => by simp at habs) hf
          simp at h1
        · rw [if_neg hv] at hf
          obtain ⟨h1, _⟩ := ih acc hinv hf
          have hacc1 := hinv h1
          rw [hacc1] at hv
          have h0 := avgDist_nonneg pdist hpd x (c.erase x)
          push_neg at hv
          linarith
  cases hres : (dianaInitSplinter pdist c).2 with
  | some s => exact ⟨s, rfl⟩
  | none =>
    exfalso
    rw [dianaInitSplinter] at hres
    obtain ⟨_, h2⟩ := hgen c (-1, none) (fun _ => rfl) hres
    obtain ⟨x, xs, rfl⟩ : ∃ x xs, c = x :: xs := by
      cases c with
      | nil => simp at hc
      | cons x xs => exact ⟨x, xs, rfl⟩
    have hx := h2 x (List.mem_cons_self x xs)
    have hlen := List.length_erase_of_mem (List.mem_cons_self x xs)
    rw [hx] at hlen
    simp at hlen
    simp at hc
    omega
theorem dianaSplit_spec (pdist : ℕ → ℕ → ℚ) (hpd : ∀ i j, 0 ≤ pdist i j)
    (c : List ℕ) (hc : 2 ≤ c.length) :
    List.Perm ((dianaSplit pdist c).1 ++ (dianaSplit pdist c).2) c ∧
      (dianaSplit pdist c).1 ≠ [] ∧ (dianaSplit pdist c).2 ≠ [] := by
  obtain ⟨s, hs⟩ := dianaInitSplinter_some pdist hpd c hc
  have hsB := dianaInitSplinter_mem pdist c s hs
  have herase : c.erase s ≠ [] := by
    have h1 := List.length_erase_of_mem hsB
    intro hemp
    rw [hemp] at h1
    simp at h1
    omega
  simp only [dianaSplit, hs]
  obtain ⟨h1, h2, h3⟩ := dianaSplitLoop_spec pdist hpd c.length [s] (c.erase s)
    (by simp) herase
  refine ⟨h1.trans ?_, h2, h3⟩
  exact List.perm_cons_erase hsB |>.symm

theorem diameterD_nonneg (pdist : ℕ → ℕ → ℚ) (hpd : ∀ i j, 0 ≤ pdist i j)
    (c : List ℕ) (hc : 2 ≤ c.length) : 0 ≤ diameterD pdist c := by
  obtain ⟨a, rest, rfl⟩ : ∃ a rest, c = a :: rest := by
    cases c with
    | nil => simp at hc
    | cons a rest => exact ⟨a, rest, rfl⟩
  rw [diameterD, if_neg (by omega)]
  have hmem : pdist a a ∈ (a :: rest).flatMap
      (fun i => (a :: rest).map (fun j => pdist i j)) := by
    apply List.mem_flatMap.mpr
    exact ⟨a, List.mem_cons_self a rest,
      List.mem_map.mpr ⟨a, List.mem_cons_self a rest, rfl⟩⟩
  exact le_trans (hpd a a) (le_listMax _ _ hmem)

theorem dianaSelect_neg (pdist : ℕ → ℕ → ℚ) (hpd : ∀ i j, 0 ≤ pdist i j)
    (cs : List (List ℕ)) (h : (dianaSelect pdist cs).2 = -1) :
    ∀ c ∈ cs, c.length < 2 := by
  rw [dianaSelect] at h
  have hgen : ∀ (l : List (ℕ × List ℕ)) (acc : ℚ × ℤ),
      (acc.2 = -1 → acc.1 = -1) →
      (l.foldl
        (fun acc ic =>
          if ic.2.length < 2 then acc
          else
            if diameterD pdist ic.2 > acc.1 then (diameterD pdist ic.2, (ic.1 : ℤ))
            else acc)
        acc).2 = -1 →
      acc.2 = -1 ∧ ∀ p ∈ l, p.2.length < 2 := by
    intro l
    induction l with
    | nil =>
      intro acc _ hf
      exact ⟨hf, fun p hp => absurd hp (List.not_mem_nil p)⟩
    | cons x l ih =>
      intro acc hinv hf
      rw [List.foldl_cons] at hf
      by_cases hsmall : x.2.length < 2
      · rw [if_pos hsmall] at hf
        obtain ⟨h1, h2⟩ := ih acc hinv hf
        exact ⟨h1, fun p hp => by
          rcases List.mem_cons.mp hp with rfl | hp'
          · exact hsmall
          · exact h2 p hp'⟩
      · rw [if_neg hsmall] at hf
        by_cases hv : diameterD pdist x.2 > acc.1
        · rw [if_pos hv] at hf
          obtain ⟨h1, _⟩ := ih _ (fun habs => by simp at habs) hf
          simp at h1
        · rw [if_neg hv] at hf
          obtain ⟨h1, _⟩ := ih acc hinv hf
          have hacc1 := hinv h1
          rw [hacc1] at hv
          have h0 := diameterD_nonneg pdist hpd x.2 (by omega)
          push_neg at hv
          linarith
  intro c hc
  obtain ⟨i, hi, he⟩ := List.mem_iff_getElem.mp hc
  have hmem : (i, c) ∈ cs.enum := by
    have h2 : i < cs.enum.length := by rw [List.enum_length]; exact hi
    have h3 := List.getElem_mem h2
    rw [List.getElem_enum, he] at h3
    exact h3
  obtain ⟨_, h2⟩ := hgen cs.enum (-1, -1) (fun _ => rfl) h
  exact h2 (i, c) hmem

theorem dianaSelect_pos (pdist : ℕ → ℕ → ℚ) (cs : List (List ℕ))
    (h : (dianaSelect pdist cs).2 ≠ -1) :
    ∃ j : ℕ, (dianaSelect pdist cs).2 = (j : ℤ) ∧ j < cs.length ∧
      2 ≤ (cs.getD j []).length := by
  rw [dianaSelect] at h ⊢
  have hgen : ∀ (l : List (ℕ × List ℕ)) (acc : ℚ × ℤ),
      (∀ p ∈ l, p.1 < cs.length ∧ p.2 = cs.getD p.1 []) →
      (acc.2 ≠ -1 → ∃ j : ℕ, acc.2 = (j : ℤ) ∧ j < cs.length ∧
        2 ≤ (cs.getD j []).length) →
      (l.foldl
        (fun acc ic =>
          if ic.2.length < 2 then acc
          else
            if diameterD pdist ic.2 > acc.1 then (diameterD pdist ic.2, (ic.1 : ℤ))
            else acc)
        acc).2 ≠ -1 →
      ∃ j : ℕ, (l.foldl
        (fun acc ic =>
          if ic.2.length < 2 then acc
          else
            if diameterD pdist ic.2 > acc.1 then (diameterD pdist ic.2, (ic.1 : ℤ))
            else acc)
        acc).2 = (j : ℤ) ∧ j < cs.length ∧ 2 ≤ (cs.getD j []).length := by
    intro l
    induction l with
    | nil =>
      intro acc _ hacc hf
      exact hacc hf
    | cons x l ih =>
      intro acc hl hacc hf
      rw [List.foldl_cons] at hf ⊢
      obtain ⟨hx1, hx2⟩ := hl x (List.mem_cons_self x l)
      refine ih _ (fun p hp => hl p (List.mem_cons_of_mem x hp)) ?_ hf
      intro hne
      by_cases hsmall : x.2.length < 2
      · rw [if_pos hsmall] at hne ⊢
        exact hacc hne
      · rw [if_neg hsmall] at hne ⊢
        by_cases hv : diameterD pdist x.2 > acc.1
        · rw [if_pos hv]
          refine ⟨x.1, rfl, hx1, ?_⟩
          rw [← hx2]
          omega
        · rw [if_neg hv] at hne ⊢
          exact hacc hne
  refine hgen cs.enum (-1, -1) ?_ (fun habs => absurd rfl habs) h
  intro p hp
  obtain ⟨h1, h2⟩ := List.mem_enum hp
  refine ⟨h1, ?_⟩
  rw [List.getD_eq_getElem cs [] h1]
  exact h2
theorem flatten_length_of_singletons (cs : List (List ℕ))
    (h : ∀ c ∈ cs, c.length = 1) : cs.flatten.length = cs.length := by
  induction cs with
  | nil => rfl
  | cons c cs ih =>
    simp only [List.flatten_cons, List.length_append, List.length_cons]
    rw [h c (List.mem_cons_self c cs),
      ih (fun c' hc' => h c' (List.mem_cons_of_mem c hc'))]
    omega

theorem length_le_flatten_length (cs : List (List ℕ))
    (h : ∀ c ∈ cs, c ≠ []) : cs.length ≤ cs.flatten.length := by
  induction cs with
  | nil => simp
  | cons c cs ih =>
    simp only [List.flatten_cons, List.length_append, List.length_cons]
    have h1 := List.length_pos.mpr (h c (List.mem_cons_self c cs))
    have h2 := ih (fun c' hc' => h c' (List.mem_cons_of_mem c hc'))
    omega

theorem dianaStep_spec (pdist : ℕ → ℕ → ℚ) (hpd : ∀ i j, 0 ≤ pdist i j)
    (cs cs' : List (List ℕ)) (hne : ∀ c ∈ cs, c ≠ [])
    (h : dianaStep pdist cs = some cs') :
    List.Perm cs'.flatten cs.flatten ∧ (∀ c ∈ cs', c ≠ []) ∧
      cs'.length = cs.length + 1 := by
  rw [dianaStep] at h
  by_cases hsel : (dianaSelect pdist cs).2 = -1
  · rw [if_pos hsel] at h
    cases h
  · rw [if_neg hsel] at h
    obtain ⟨j, hj, hjlen, hjbig⟩ := dianaSelect_pos pdist cs hsel
    rw [hj, Int.toNat_natCast] at h
    simp only [Option.some.injEq] at h
    obtain ⟨hsp, hsne1, hsne2⟩ := dianaSplit_spec pdist hpd (cs.getD j []) hjbig
    subst h
    refine ⟨?_, ?_, ?_⟩
    · simp only [List.flatten_append, List.flatten_cons, List.flatten_nil,
        List.append_nil]
      have hstep1 : List.Perm
          ((cs.eraseIdx j).flatten ++ ((dianaSplit pdist (cs.getD j [])).2 ++
            (dianaSplit pdist (cs.getD j [])).1))
          (((dianaSplit pdist (cs.getD j [])).2 ++
            (dianaSplit pdist (cs.getD j [])).1) ++ (cs.eraseIdx j).flatten) :=
        List.perm_append_comm
      refine hstep1.trans ?_
      have hstep2 : List.Perm
          ((dianaSplit pdist (cs.getD j [])).2 ++ (dianaSplit pdist (cs.getD j [])).1)
          (cs.getD j []) :=
        List.perm_append_comm.trans hsp
      exact (hstep2.append_right _).trans (getD_cons_flatten_eraseIdx_perm cs j hjlen)
    · intro c hc
      rcases List.mem_append.mp hc with h1 | h1
      · exact hne c (List.mem_of_mem_eraseIdx h1)
      · rcases List.mem_cons.mp h1 with rfl | h2
        · exact hsne2
        · rcases List.mem_cons.mp h2 with rfl | h3
          · exact hsne1
          · exact absurd h3 (List.not_mem_nil c)
    · simp only [List.length_append, List.length_cons, List.length_nil]
      rw [List.length_eraseIdx_of_lt hjlen]
      omega

theorem dianaLoop_ok (pdist : ℕ → ℕ → ℚ) (hpd : ∀ i j, 0 ≤ pdist i j) (k : ℕ) :
    ∀ (fuel : ℕ) (cs : List (List ℕ)), (∀ c ∈ cs, c ≠ []) →
      k ≤ cs.length + fuel → cs.length ≤ k →
      List.Perm (dianaLoop pdist k fuel cs).flatten cs.flatten ∧
      (∀ c ∈ dianaLoop pdist k fuel cs, c ≠ []) ∧
      cs.length ≤ (dianaLoop pdist k fuel cs).length ∧
      (dianaLoop pdist k fuel cs).length ≤ k ∧
      ((dianaLoop pdist k fuel cs).length < k →
        (dianaLoop pdist k fuel cs).length = (dianaLoop pdist k fuel cs).flatten.length) := by
  intro fuel
  induction fuel with
  | zero =>
    intro cs hne hfl hlk
    simp only [dianaLoop]
    exact ⟨List.Perm.refl _, hne, le_refl _, hlk, fun hlt => absurd hlt (by omega)⟩
  | succ fuel ih =>
    intro cs hne hfl hlk
    by_cases hlt : cs.length < k
    · cases hstep : dianaStep pdist cs with
      | none =>
        simp only [dianaLoop, if_pos hlt, hstep]
        have hsel : (dianaSelect pdist cs).2 = -1 := by
          by_contra hsel
          rw [dianaStep, if_neg hsel] at hstep
          cases hstep
        have hsmall := dianaSelect_neg pdist hpd cs hsel
        refine ⟨List.Perm.refl _, hne, le_refl _, by omega, fun _ => ?_⟩
        rw [flatten_length_of_singletons]
        intro c hc
        have h1 := hsmall c hc
        have h2 := List.length_pos.mpr (hne c hc)
        omega
      | some cs' =>
        simp only [dianaLoop, if_pos hlt, hstep]
        obtain ⟨hp, hne', hlen'⟩ := dianaStep_spec pdist hpd cs cs' hne hstep
        obtain ⟨ih1, ih2, ih3, ih4, ih5⟩ := ih cs' hne' (by omega) (by omega)
        exact ⟨ih1.trans hp, ih2, by omega, ih4, ih5⟩
    · simp only [dianaLoop, if_neg hlt]
      exact ⟨List.Perm.refl _, hne, le_refl _, hlk, fun h => absurd h (by omega)⟩

theorem dianaClusters_partition (pdist : ℕ → ℕ → ℚ) (k n : ℕ)
    (hk : 1 ≤ k) (hpd : ∀ i j, 0 ≤ pdist i j) :
    List.Perm (dianaClusters pdist k n).flatten (List.range n) ∧
      (1 ≤ n → (∀ c ∈ dianaClusters pdist k n, c ≠ []) ∧
        (dianaClusters pdist k n).length = min k n) := by
  by_cases hn : 1 ≤ n
  · have hne : ∀ c ∈ [List.range n], c ≠ [] := by
      intro c hc
      rcases List.mem_cons.mp hc with rfl | h
      · intro habs
        have := List.length_range n ▸ congrArg List.length habs
        simp at this
        omega
      · exact absurd h (List.not_mem_nil c)
    obtain ⟨h1, h2, h3, h4, h5⟩ := dianaLoop_ok pdist hpd k k [List.range n] hne
      (by simp) (by simp; omega)
    have hfl : ([List.range n] : List (List ℕ)).flatten = List.range n := by
      simp
    rw [hfl] at h1
    have hflen : (dianaLoop pdist k k [List.range n]).flatten.length = n := by
      rw [h1.length_eq, List.length_range]
    refine ⟨h1, fun _ => ⟨h2, ?_⟩⟩
    by_cases hcase : (dianaLoop pdist k k [List.range n]).length < k
    · have h6 := h5 hcase
      rw [hflen] at h6
      rw [dianaClusters, h6, min_eq_right (by omega)]
    · have h6 : (dianaLoop pdist k k [List.range n]).length = k := by omega
      have h7 := length_le_flatten_length _ h2
      rw [hflen, h6] at h7
      rw [dianaClusters, h6, min_eq_left h7]
  · have hn0 : n = 0 := by omega
    subst hn0
    have hres : dianaClusters pdist k 0 = [[]] := by
      rw [dianaClusters]
      cases k with
      | zero => simp at hk
      | succ k' =>
        cases k' with
        | zero => simp [dianaLoop]
        | succ k'' =>
          simp only [dianaLoop, List.range_zero, List.length_cons, List.length_nil]
          rw [if_pos (by omega)]
          have hstep : dianaStep pdist [[]] = none := by
            rw [dianaStep, if_pos]
            rfl
          rw [hstep]
    rw [hres]
    exact ⟨by simp, fun h => absurd h (by omega)⟩
theorem ratAbs_nonneg (q : ℚ) : 0 ≤ ratAbs q := by
  rw [ratAbs_eq_abs]
  exact abs_nonneg q

/-- C8: for AGNES (lines 102-132) and DIANA (lines 154-244), with a cluster
count `k ≥ 1` and a nonnegative point distance (the source's Euclidean
norm), the cluster lists underlying the returned labels are genuine
partitions: the concatenation of the groups is a permutation of the sample
indices `0..n-1` — so the groups are pairwise disjoint, every sample index
lies in exactly one group, and the group sizes sum to `n` — every group is
nonempty, and the number of groups is `min k n`: exactly `k`, or fewer
(`n`) when the algorithm runs out of mergeable or splittable clusters
early.  The AGNES half is stated for every successful run (an unknown
linkage errors instead, see C6), and the DIANA nonemptiness and count are
stated for matrices with at least one row (on a 0-row matrix DIANA's
cluster list is the single empty group `[[]]`, with an empty label
vector). -/
theorem hierarchical_partitions (pdist : ℕ → ℕ → ℚ) (linkage : String) (k n : ℕ)
    (hk : 1 ≤ k) (hpd : ∀ i j, 0 ≤ pdist i j) :
    (∀ rcs, agnesClusters pdist linkage k n = .ok rcs →
      List.Perm rcs.flatten (List.range n) ∧ (∀ c ∈ rcs, c ≠ []) ∧
        rcs.length = min k n) ∧
    List.Perm (dianaClusters pdist k n).flatten (List.range n) ∧
    (1 ≤ n → (∀ c ∈ dianaClusters pdist k n, c ≠ []) ∧
      (dianaClusters pdist k n).length = min k n) :=
  ⟨fun rcs h => agnesClusters_partition pdist linkage k n hk rcs h,
    (dianaClusters_partition pdist k n hk hpd).1,
    (dianaClusters_partition pdist k n hk hpd).2⟩

/-- Witness for `hierarchical_partitions`: the three one-dimensional
samples `[0, 1, 5]` with `k = 2` and single linkage. -/
theorem hierarchical_partitions_witness :
    (1 ≤ 2) ∧
    ((∀ rcs, agnesClusters
        (fun i j => ratAbs (([0, 1, 5] : List ℚ).getD i 0 - ([0, 1, 5] : List ℚ).getD j 0))
        "single" 2 3 = .ok rcs →
      List.Perm rcs.flatten (List.range 3) ∧ (∀ c ∈ rcs, c ≠ []) ∧
        rcs.length = min 2 3) ∧
    List.Perm (dianaClusters
        (fun i j => ratAbs (([0, 1, 5] : List ℚ).getD i 0 - ([0, 1, 5] : List ℚ).getD j 0))
        2 3).flatten (List.range 3) ∧
    (1 ≤ 3 → (∀ c ∈ dianaClusters
        (fun i j => ratAbs (([0, 1, 5] : List ℚ).getD i 0 - ([0, 1, 5] : List ℚ).getD j 0))
        2 3, c ≠ []) ∧
      (dianaClusters
        (fun i j => ratAbs (([0, 1, 5] : List ℚ).getD i 0 - ([0, 1, 5] : List ℚ).getD j 0))
        2 3).length = min 2 3)) :=
  ⟨by norm_num,
    hierarchical_partitions
      (fun i j => ratAbs (([0, 1, 5] : List ℚ).getD i 0 - ([0, 1, 5] : List ℚ).getD j 0))
      "single" 2 3 (by norm_num) (fun i j => ratAbs_nonneg _)⟩
/- ### DBSCAN (lines 247-292) -/

/-- `DBSCAN._region_query` (lines 290-292): the ascending list of indices
within `eps` of `x` (`np.where(dists <= self.eps)[0]`). -/
def regionQuery (pdist : ℕ → ℕ → ℚ) (eps : ℚ) (n x : ℕ) : List ℕ :=
  (List.range n).filter (fun j => pdist x j ≤ eps)

/-- The mutable state of `DBSCAN.fit`: the `labels` array (noise = -1) and
the `visited` array, as total maps updated pointwise. -/
structure DB where
  labels : ℕ → ℤ
  visited : ℕ → Bool

/-- `if self.labels[idx] == -1: self.labels[idx] = cluster_id` (lines
286-287 and, for the seed, 270). -/
def labelIfNoise (lab : ℕ → ℤ) (x : ℕ) (cid : ℤ) : ℕ → ℤ :=
  if lab x = -1 then Function.update lab x cid else lab

/-- `DBSCAN._expand_cluster` (lines 276-288): the growing `neighbors` list
split into the processed prefix `done` and the unprocessed suffix `todo`
(the index `i` of the source points at the head of `todo`).  An unvisited
point is visited and, when it is a core point, the members of its
neighborhood not already in the list (`done ++ todo`, the full current
list) are appended; then the point is labelled if it is noise.  The list
never repeats an element, so `n + 1` units of fuel (provided by the
caller) always reach the loop's exit. -/
def dbExpand (pdist : ℕ → ℕ → ℚ) (eps : ℚ) (n ms : ℕ) (cid : ℤ) :
    ℕ → List ℕ → List ℕ → DB → DB
  | 0, _, _, st => st
  | _ + 1, _, [], st => st
  | fuel + 1, done, x :: rest, st =>
      if st.visited x then
        dbExpand pdist eps n ms cid fuel (done ++ [x]) rest
          ⟨labelIfNoise st.labels x cid, st.visited⟩
      else
        dbExpand pdist eps n ms cid fuel (done ++ [x])
          (if ms ≤ (regionQuery pdist eps n x).length then
            rest ++ (regionQuery pdist eps n x).filter
              (fun y => !(decide (y ∈ done ++ x :: rest)))
          else rest)
          ⟨labelIfNoise st.labels x cid, Function.update st.visited x true⟩

/-- The seed loop of `DBSCAN.fit` (lines 260-272): each unvisited index is
visited; if it is not a core point it is (re)labelled noise, otherwise it
starts cluster `cid`, its neighborhood is expanded, and the cluster id is
incremented. -/
def dbSeedLoop (pdist : ℕ → ℕ → ℚ) (eps : ℚ) (n ms : ℕ) :
    List ℕ → ℤ → DB → DB
  | [], _, st => st
  | i :: is, cid, st =>
      if st.visited i then dbSeedLoop pdist eps n ms is cid st
      else
        if (regionQuery pdist eps n i).length < ms then
          dbSeedLoop pdist eps n ms is cid
            ⟨Function.update st.labels i (-1), Function.update st.visited i true⟩
        else
          dbSeedLoop pdist eps n ms is (cid + 1)
            (dbExpand pdist eps n ms cid (n + 1) [] (regionQuery pdist eps n i)
              ⟨Function.update st.labels i cid, Function.update st.visited i true⟩)

/-- The label map produced by `DBSCAN.fit(X)` (lines 253-274), from
all-noise labels and nothing visited. -/
def dbscanLabels (pdist : ℕ → ℕ → ℚ) (eps : ℚ) (ms n : ℕ) : ℕ → ℤ :=
  (dbSeedLoop pdist eps n ms (List.range n) 0 ⟨fun _ => -1, fun _ => false⟩).labels

/-- The number of samples `DBSCAN.fit` labels as non-noise. -/
def dbNonNoise (pdist : ℕ → ℕ → ℚ) (eps : ℚ) (ms n : ℕ) : ℕ :=
  ((List.range n).filter (fun x => decide (dbscanLabels pdist eps ms n x ≠ -1))).length
theorem labelIfNoise_self (lab : ℕ → ℤ) (x : ℕ) (cid : ℤ) (hcid : cid ≠ -1) :
    labelIfNoise lab x cid x ≠ -1 := by
  rw [labelIfNoise]
  by_cases h : lab x = -1
  · rw [if_pos h, Function.update_same]
    exact hcid
  · rw [if_neg h]
    exact h

theorem labelIfNoise_other (lab : ℕ → ℤ) (x : ℕ) (cid : ℤ) (y : ℕ) (h : y ≠ x) :
    labelIfNoise lab x cid y = lab y := by
  rw [labelIfNoise]
  by_cases h1 : lab x = -1
  · rw [if_pos h1, Function.update_noteq h]
  · rw [if_neg h1]

theorem labelIfNoise_mono (lab : ℕ → ℤ) (x : ℕ) (cid : ℤ) (hcid : cid ≠ -1) :
    ∀ y, lab y ≠ -1 → labelIfNoise lab x cid y ≠ -1 := by
  intro y hy
  by_cases h : y = x
  · subst h
    exact labelIfNoise_self lab y cid hcid
  · rwa [labelIfNoise_other lab x cid y h]

theorem labelIfNoise_cases (lab : ℕ → ℤ) (x : ℕ) (cid : ℤ) :
    ∀ y, labelIfNoise lab x cid y = lab y ∨ labelIfNoise lab x cid y = cid := by
  intro y
  rw [labelIfNoise]
  by_cases h1 : lab x = -1
  · rw [if_pos h1]
    by_cases h : y = x
    · subst h
      exact Or.inr (Function.update_same y cid lab)
    · exact Or.inl (Function.update_noteq h cid lab)
  · rw [if_neg h1]
    exact Or.inl rfl

theorem labelIfNoise_src (lab : ℕ → ℤ) (x : ℕ) (cid : ℤ) :
    ∀ y, labelIfNoise lab x cid y ≠ -1 → lab y ≠ -1 ∨ y = x := by
  intro y hy
  by_cases h : y = x
  · exact Or.inr h
  · rw [labelIfNoise_other lab x cid y h] at hy
    exact Or.inl hy

theorem regionQuery_nodup (pdist : ℕ → ℕ → ℚ) (eps : ℚ) (n x : ℕ) :
    (regionQuery pdist eps n x).Nodup :=
  (List.nodup_range n).filter _

theorem regionQuery_lt (pdist : ℕ → ℕ → ℚ) (eps : ℚ) (n x : ℕ) :
    ∀ y ∈ regionQuery pdist eps n x, y < n := by
  intro y hy
  exact List.mem_range.mp (List.mem_filter.mp hy).1
theorem dbExpand_spec (pdist : ℕ → ℕ → ℚ) (eps : ℚ) (n ms : ℕ) (cid : ℤ)
    (hcid : cid ≠ -1) :
    ∀ (fuel : ℕ) (done todo : List ℕ) (st : DB),
      (∀ y ∈ done, st.labels y ≠ -1) →
      (done ++ todo).Nodup →
      (∀ y ∈ done ++ todo, y < n) →
      (∀ y ∈ todo, ∃ c, c < n ∧ ms ≤ (regionQuery pdist eps n c).length ∧
        y ∈ regionQuery pdist eps n c) →
      (∀ c, st.visited c = true → ms ≤ (regionQuery pdist eps n c).length →
        ∀ y ∈ regionQuery pdist eps n c, st.labels y ≠ -1 ∨ y ∈ todo) →
      (∀ x, st.labels x ≠ -1 → ∃ c, c < n ∧ ms ≤ (regionQuery pdist eps n c).length ∧
        x ∈ regionQuery pdist eps n c) →
      (∀ x, st.labels x ≠ -1 → st.visited x = true) →
      n + 1 ≤ fuel + done.length →
      (∀ y ∈ done ++ todo,
        (dbExpand pdist eps n ms cid fuel done todo st).labels y ≠ -1) ∧
      (∀ z, (dbExpand pdist eps n ms cid fuel done todo st).labels z = st.labels z ∨
        (dbExpand pdist eps n ms cid fuel done todo st).labels z = cid) ∧
      (∀ c, (dbExpand pdist eps n ms cid fuel done todo st).visited c = true →
        ms ≤ (regionQuery pdist eps n c).length →
        ∀ y ∈ regionQuery pdist eps n c,
          (dbExpand pdist eps n ms cid fuel done todo st).labels y ≠ -1) ∧
      (∀ z, (dbExpand pdist eps n ms cid fuel done todo st).labels z ≠ -1 →
        ∃ c, c < n ∧ ms ≤ (regionQuery pdist eps n c).length ∧
          z ∈ regionQuery pdist eps n c) ∧
      (∀ c, st.visited c = true →
        (dbExpand pdist eps n ms cid fuel done todo st).visited c = true) ∧
      (∀ z, (dbExpand pdist eps n ms cid fuel done todo st).labels z ≠ -1 →
        (dbExpand pdist eps n ms cid fuel done todo st).visited z = true) := by
  intro fuel
  induction fuel with
  | zero =>
    intro done todo st hKA hnd hlt hKC hKD hKE hKF hfuel
    exfalso
    have h1 : done.Nodup := (List.nodup_append.mp hnd).1
    have h2 : done ⊆ List.range n := by
      intro y hy
      exact List.mem_range.mpr (hlt y (List.mem_append.mpr (Or.inl hy)))
    have h3 := (List.subperm_of_subset h1 h2).length_le
    rw [List.length_range] at h3
    omega
  | succ fuel ih =>
    intro done todo st hKA hnd hlt hKC hKD hKE hKF hfuel
    cases todo with
    | nil =>
      have hres : dbExpand pdist eps n ms cid (fuel + 1) done [] st = st := by
        simp only [dbExpand]
      rw [hres]
      refine ⟨?_, fun z => Or.inl rfl, ?_, hKE, fun c h => h, hKF⟩
      · intro y hy
        rw [List.append_nil] at hy
        exact hKA y hy
      · intro c hc hcore y hy
        rcases hKD c hc hcore y hy with h | h
        · exact h
        · exact absurd h (List.not_mem_nil y)
    | cons x rest =>
      have hx_mem : x ∈ done ++ x :: rest :=
        List.mem_append.mpr (Or.inr (List.mem_cons_self x rest))
      have hxn : x < n := hlt x hx_mem
      have hx_not_done : x ∉ done := by
        intro hxd
        obtain ⟨-, -, hdisj⟩ := List.nodup_append.mp hnd
        exact hdisj hxd (List.mem_cons_self x rest)
      have heq : (done ++ [x]) ++ rest = done ++ x :: rest := by simp
      have hKA' : ∀ y ∈ done ++ [x], labelIfNoise st.labels x cid y ≠ -1 := by
        intro y hy
        rcases List.mem_append.mp hy with h | h
        · exact labelIfNoise_mono st.labels x cid hcid y (hKA y h)
        · rcases List.mem_cons.mp h with rfl | h2
          · exact labelIfNoise_self st.labels y cid hcid
          · exact absurd h2 (List.not_mem_nil y)
      have hKE' : ∀ z, labelIfNoise st.labels x cid z ≠ -1 →
          ∃ c, c < n ∧ ms ≤ (regionQuery pdist eps n c).length ∧
            z ∈ regionQuery pdist eps n c := by
        intro z hz
        rcases labelIfNoise_src st.labels x cid z hz with h | rfl
        · exact hKE z h
        · exact hKC z (List.mem_cons_self z rest)
      have hfuel' : n + 1 ≤ fuel + (done ++ [x]).length := by
        rw [List.length_append, List.length_cons, List.length_nil]
        omega
      by_cases hv : st.visited x = true
      · simp only [dbExpand, if_pos hv]
        have hKD' : ∀ c, st.visited c = true →
            ms ≤ (regionQuery pdist eps n c).length →
            ∀ y ∈ regionQuery pdist eps n c,
              labelIfNoise st.labels x cid y ≠ -1 ∨ y ∈ rest := by
          intro c hc hcore y hy
          rcases hKD c hc hcore y hy with h | h
          · exact Or.inl (labelIfNoise_mono st.labels x cid hcid y h)
          · rcases List.mem_cons.mp h with rfl | h2
            · exact Or.inl (labelIfNoise_self st.labels y cid hcid)
            · exact Or.inr h2
        have hKF' : ∀ z, labelIfNoise st.labels x cid z ≠ -1 →
            st.visited z = true := by
          intro z hz
          rcases labelIfNoise_src st.labels x cid z hz with h | rfl
          · exact hKF z h
          · exact hv
        obtain ⟨R1, R2, R3, R4, R5, R6⟩ := ih (done ++ [x]) rest
          ⟨labelIfNoise st.labels x cid, st.visited⟩
          hKA' (by rw [heq]; exact hnd) (by rw [heq]; exact hlt)
          (fun y hy => hKC y (List.mem_cons_of_mem x hy))
          hKD' hKE' hKF' hfuel'
        refine ⟨?_, ?_, R3, R4, R5, R6⟩
        · intro y hy
          apply R1
          rwa [heq]
        · intro z
          rcases R2 z with h | h
          · rcases labelIfNoise_cases st.labels x cid z with h2 | h2
            · exact Or.inl (h.trans h2)
            · exact Or.inr (h.trans h2)
          · exact Or.inr h
      · simp only [dbExpand, if_neg hv]
        have hKF' : ∀ z, labelIfNoise st.labels x cid z ≠ -1 →
            Function.update st.visited x true z = true := by
          intro z hz
          by_cases hzx : z = x
          · subst hzx
            exact Function.update_same z true st.visited
          · rw [Function.update_noteq hzx]
            rcases labelIfNoise_src st.labels x cid z hz with h | h
            · exact hKF z h
            · exact absurd h hzx
        have hR5pre : ∀ c, st.visited c = true →
            Function.update st.visited x true c = true := by
          intro c hc
          by_cases hcx : c = x
          · subst hcx
            exact Function.update_same c true st.visited
          · rwa [Function.update_noteq hcx]
        by_cases hcore : ms ≤ (regionQuery pdist eps n x).length
        · rw [if_pos hcore]
          have happ_sub : ∀ y ∈ (regionQuery pdist eps n x).filter
              (fun y => !(decide (y ∈ done ++ x :: rest))),
              y ∈ regionQuery pdist eps n x ∧ y ∉ done ++ x :: rest := by
            intro y hy
            obtain ⟨h1, h2⟩ := List.mem_filter.mp hy
            refine ⟨h1, ?_⟩
            simpa using h2
          have heq2 : (done ++ [x]) ++ (rest ++ (regionQuery pdist eps n x).filter
              (fun y => !(decide (y ∈ done ++ x :: rest)))) =
              (done ++ x :: rest) ++ (regionQuery pdist eps n x).filter
              (fun y => !(decide (y ∈ done ++ x :: rest))) := by
            simp
          have hnd' : ((done ++ [x]) ++ (rest ++ (regionQuery pdist eps n x).filter
              (fun y => !(decide (y ∈ done ++ x :: rest))))).Nodup := by
            rw [heq2]
            apply List.nodup_append.mpr
            refine ⟨hnd, (regionQuery_nodup pdist eps n x).filter _, ?_⟩
            intro a ha hafilter
            exact (happ_sub a hafilter).2 ha
          have hlt' : ∀ y ∈ (done ++ [x]) ++ (rest ++ (regionQuery pdist eps n x).filter
              (fun y => !(decide (y ∈ done ++ x :: rest)))), y < n := by
            rw [heq2]
            intro y hy
            rcases List.mem_append.mp hy with h | h
            · exact hlt y h
            · exact regionQuery_lt pdist eps n x y (happ_sub y h).1
          have hKC' : ∀ y ∈ rest ++ (regionQuery pdist eps n x).filter
              (fun y => !(decide (y ∈ done ++ x :: rest))),
              ∃ c, c < n ∧ ms ≤ (regionQuery pdist eps n c).length ∧
                y ∈ regionQuery pdist eps n c := by
            intro y hy
            rcases List.mem_append.mp hy with h | h
            · exact hKC y (List.mem_cons_of_mem x h)
            · exact ⟨x, hxn, hcore, (happ_sub y h).1⟩
          have hKD' : ∀ c, Function.update st.visited x true c = true →
              ms ≤ (regionQuery pdist eps n c).length →
              ∀ y ∈ regionQuery pdist eps n c,
                labelIfNoise st.labels x cid y ≠ -1 ∨
                  y ∈ rest ++ (regionQuery pdist eps n x).filter
                    (fun y => !(decide (y ∈ done ++ x :: rest))) := by
            intro c hc hcore' y hy
            by_cases hcx : c = x
            · rw [hcx] at hy
              by_cases hy_cur : y ∈ done ++ x :: rest
              · rcases List.mem_append.mp hy_cur with h | h
                · exact Or.inl (labelIfNoise_mono st.labels x cid hcid y (hKA y h))
                · rcases List.mem_cons.mp h with rfl | h2
                  · exact Or.inl (labelIfNoise_self st.labels y cid hcid)
                  · exact Or.inr (List.mem_append.mpr (Or.inl h2))
              · refine Or.inr (List.mem_append.mpr (Or.inr ?_))
                apply List.mem_filter.mpr
                refine ⟨hy, ?_⟩
                simpa using hy_cur
            · rw [Function.update_noteq hcx] at hc
              rcases hKD c hc hcore' y hy with h | h
              · exact Or.inl (labelIfNoise_mono st.labels x cid hcid y h)
              · rcases List.mem_cons.mp h with rfl | h2
                · exact Or.inl (labelIfNoise_self st.labels y cid hcid)
                · exact Or.inr (List.mem_append.mpr (Or.inl h2))
          have hfuel'' : n + 1 ≤ fuel + ((done ++ [x]).length) := hfuel'
          obtain ⟨R1, R2, R3, R4, R5, R6⟩ := ih (done ++ [x])
            (rest ++ (regionQuery pdist eps n x).filter
              (fun y => !(decide (y ∈ done ++ x :: rest))))
            ⟨labelIfNoise st.labels x cid, Function.update st.visited x true⟩
            hKA' hnd' hlt' hKC' hKD' hKE' hKF' hfuel''
          refine ⟨?_, ?_, R3, R4, ?_, R6⟩
          · intro y hy
            apply R1
            rw [heq2]
            exact List.mem_append.mpr (Or.inl hy)
          · intro z
            rcases R2 z with h | h
            · rcases labelIfNoise_cases st.labels x cid z with h2 | h2
              · exact Or.inl (h.trans h2)
              · exact Or.inr (h.trans h2)
            · exact Or.inr h
          · intro c hc
            exact R5 c (hR5pre c hc)
        · rw [if_neg hcore]
          have hKD' : ∀ c, Function.update st.visited x true c = true →
              ms ≤ (regionQuery pdist eps n c).length →
              ∀ y ∈ regionQuery pdist eps n c,
                labelIfNoise st.labels x cid y ≠ -1 ∨ y ∈ rest := by
            intro c hc hcore' y hy
            by_cases hcx : c = x
            · rw [hcx] at hcore'
              exact absurd hcore' hcore
            · rw [Function.update_noteq hcx] at hc
              rcases hKD c hc hcore' y hy with h | h
              · exact Or.inl (labelIfNoise_mono st.labels x cid hcid y h)
              · rcases List.mem_cons.mp h with rfl | h2
                · exact Or.inl (labelIfNoise_self st.labels y cid hcid)
                · exact Or.inr h2
          obtain ⟨R1, R2, R3, R4, R5, R6⟩ := ih (done ++ [x]) rest
            ⟨labelIfNoise st.labels x cid, Function.update st.visited x true⟩
            hKA' (by rw [heq]; exact hnd) (by rw [heq]; exact hlt)
            (fun y hy => hKC y (List.mem_cons_of_mem x hy))
            hKD' hKE' hKF' hfuel'
          refine ⟨?_, ?_, R3, R4, ?_, R6⟩
          · intro y hy
            apply R1
            rwa [heq]
          · intro z
            rcases R2 z with h | h
            · rcases labelIfNoise_cases st.labels x cid z with h2 | h2
              · exact Or.inl (h.trans h2)
              · exact Or.inr (h.trans h2)
            · exact Or.inr h
          · intro c hc
            exact R5 c (hR5pre c hc)
theorem dbSeedLoop_spec (pdist : ℕ → ℕ → ℚ) (eps : ℚ) (n ms : ℕ)
    (hself : ∀ j, pdist j j ≤ eps) :
    ∀ (seeds : List ℕ) (cid : ℤ) (st : DB),
      0 ≤ cid →
      (∀ s ∈ seeds, s < n) →
      (∀ x, st.labels x ≠ -1 → ∃ c, c < n ∧ ms ≤ (regionQuery pdist eps n c).length ∧
        x ∈ regionQuery pdist eps n c) →
      (∀ c, st.visited c = true → ms ≤ (regionQuery pdist eps n c).length →
        ∀ y ∈ regionQuery pdist eps n c, st.labels y ≠ -1) →
      (∀ x, st.labels x ≠ -1 → st.visited x = true) →
      (∀ x, (dbSeedLoop pdist eps n ms seeds cid st).labels x ≠ -1 →
        ∃ c, c < n ∧ ms ≤ (regionQuery pdist eps n c).length ∧
          x ∈ regionQuery pdist eps n c) ∧
      (∀ s ∈ seeds, (dbSeedLoop pdist eps n ms seeds cid st).visited s = true) ∧
      (∀ c, (dbSeedLoop pdist eps n ms seeds cid st).visited c = true →
        ms ≤ (regionQuery pdist eps n c).length →
        ∀ y ∈ regionQuery pdist eps n c,
          (dbSeedLoop pdist eps n ms seeds cid st).labels y ≠ -1) ∧
      (∀ c, st.visited c = true →
        (dbSeedLoop pdist eps n ms seeds cid st).visited c = true) := by
  intro seeds
  induction seeds with
  | nil =>
    intro cid st _ _ hL1 hL2 hL3
    simp only [dbSeedLoop]
    exact ⟨hL1, fun s hs => absurd hs (List.not_mem_nil s), hL2, fun c h => h⟩
  | cons i is ih =>
    intro cid st hcid hseeds hL1 hL2 hL3
    have hin : i < n := hseeds i (List.mem_cons_self i is)
    have hseeds' : ∀ s ∈ is, s < n := fun s hs => hseeds s (List.mem_cons_of_mem i hs)
    by_cases hv : st.visited i = true
    · simp only [dbSeedLoop, if_pos hv]
      obtain ⟨S1, S2, S3, S4⟩ := ih cid st hcid hseeds' hL1 hL2 hL3
      exact ⟨S1, fun s hs => by
        rcases List.mem_cons.mp hs with rfl | h
        · exact S4 s hv
        · exact S2 s h, S3, S4⟩
    · simp only [dbSeedLoop, if_neg hv]
      have hv' : st.visited i = false := Bool.not_eq_true _ |>.mp hv
      by_cases hlen : (regionQuery pdist eps n i).length < ms
      · rw [if_pos hlen]
        have hL1' : ∀ x, Function.update st.labels i (-1) x ≠ -1 →
            ∃ c, c < n ∧ ms ≤ (regionQuery pdist eps n c).length ∧
              x ∈ regionQuery pdist eps n c := by
          intro x hx
          by_cases hxi : x = i
          · subst hxi
            rw [Function.update_same] at hx
            exact absurd rfl hx
          · rw [Function.update_noteq hxi] at hx
            exact hL1 x hx
        have hL2' : ∀ c, Function.update st.visited i true c = true →
            ms ≤ (regionQuery pdist eps n c).length →
            ∀ y ∈ regionQuery pdist eps n c,
              Function.update st.labels i (-1) y ≠ -1 := by
          intro c hc hcore y hy
          by_cases hci : c = i
          · rw [hci] at hcore
            omega
          · rw [Function.update_noteq hci] at hc
            have hlab := hL2 c hc hcore y hy
            have hyi : y ≠ i := by
              intro hyi
              rw [hyi] at hlab
              exact hv (hL3 i hlab)
            rwa [Function.update_noteq hyi]
        have hL3' : ∀ x, Function.update st.labels i (-1) x ≠ -1 →
            Function.update st.visited i true x = true := by
          intro x hx
          by_cases hxi : x = i
          · subst hxi
            exact Function.update_same x true st.visited
          · rw [Function.update_noteq hxi] at hx
            rw [Function.update_noteq hxi]
            exact hL3 x hx
        obtain ⟨S1, S2, S3, S4⟩ := ih cid
          ⟨Function.update st.labels i (-1), Function.update st.visited i true⟩
          hcid hseeds' hL1' hL2' hL3'
        refine ⟨S1, ?_, S3, ?_⟩
        · intro s hs
          rcases List.mem_cons.mp hs with rfl | h
          · exact S4 s (Function.update_same s true st.visited)
          · exact S2 s h
        · intro c hc
          apply S4
          show Function.update st.visited i true c = true
          by_cases hci : c = i
          · subst hci
            exact Function.update_same c true st.visited
          · rwa [Function.update_noteq hci]
      · rw [if_neg hlen]
        have hcore : ms ≤ (regionQuery pdist eps n i).length := by omega
        have hcidne : cid ≠ -1 := by omega
        have hiN : i ∈ regionQuery pdist eps n i := by
          rw [regionQuery]
          apply List.mem_filter.mpr
          exact ⟨List.mem_range.mpr hin, by simpa using hself i⟩
        obtain ⟨R1, R2, R3, R4, R5, R6⟩ := dbExpand_spec pdist eps n ms cid hcidne
          (n + 1) [] (regionQuery pdist eps n i)
          ⟨Function.update st.labels i cid, Function.update st.visited i true⟩
          (fun y hy => absurd hy (List.not_mem_nil y))
          (by rw [List.nil_append]; exact regionQuery_nodup pdist eps n i)
          (by rw [List.nil_append]; exact regionQuery_lt pdist eps n i)
          (fun y hy => ⟨i, hin, hcore, hy⟩)
          (by
            intro c hc hcore' y hy
            replace hc : Function.update st.visited i true c = true := hc
            by_cases hci : c = i
            · rw [hci] at hy
              exact Or.inr hy
            · rw [Function.update_noteq hci] at hc
              have hlab := hL2 c hc hcore' y hy
              have hyi : y ≠ i := by
                intro hyi
                rw [hyi] at hlab
                exact hv (hL3 i hlab)
              refine Or.inl ?_
              show Function.update st.labels i cid y ≠ -1
              rw [Function.update_noteq hyi]
              exact hlab)
          (by
            intro x hx
            replace hx : Function.update st.labels i cid x ≠ -1 := hx
            by_cases hxi : x = i
            · subst hxi
              exact ⟨x, hin, hcore, hiN⟩
            · rw [Function.update_noteq hxi] at hx
              exact hL1 x hx)
          (by
            intro x hx
            replace hx : Function.update st.labels i cid x ≠ -1 := hx
            show Function.update st.visited i true x = true
            by_cases hxi : x = i
            · subst hxi
              exact Function.update_same x true st.visited
            · rw [Function.update_noteq hxi] at hx
              rw [Function.update_noteq hxi]
              exact hL3 x hx)
          (by simp)
        obtain ⟨S1, S2, S3, S4⟩ := ih (cid + 1)
          (dbExpand pdist eps n ms cid (n + 1) [] (regionQuery pdist eps n i)
            ⟨Function.update st.labels i cid, Function.update st.visited i true⟩)
          (by omega) hseeds' R4 R3 R6
        refine ⟨S1, ?_, S3, ?_⟩
        · intro s hs
          rcases List.mem_cons.mp hs with rfl | h
          · exact S4 s (R5 s (Function.update_same s true st.visited))
          · exact S2 s h
        · intro c hc
          apply S4
          apply R5
          show Function.update st.visited i true c = true
          by_cases hci : c = i
          · subst hci
            exact Function.update_same c true st.visited
          · rwa [Function.update_noteq hci]
theorem dbscanLabels_characterization (pdist : ℕ → ℕ → ℚ) (eps : ℚ) (ms n : ℕ)
    (hself : ∀ j, pdist j j ≤ eps) :
    ∀ x, dbscanLabels pdist eps ms n x ≠ -1 ↔
      ∃ c, c < n ∧ ms ≤ (regionQuery pdist eps n c).length ∧
        x ∈ regionQuery pdist eps n c := by
  obtain ⟨S1, S2, S3, _⟩ := dbSeedLoop_spec pdist eps n ms hself (List.range n) 0
    ⟨fun _ => -1, fun _ => false⟩ (le_refl 0)
    (fun s hs => List.mem_range.mp hs)
    (fun x hx => absurd rfl hx)
    (fun c hc => absurd hc (by simp))
    (fun x hx => absurd rfl hx)
  intro x
  constructor
  · exact S1 x
  · rintro ⟨c, hcn, hcore, hx⟩
    exact S3 c (S2 c (List.mem_range.mpr hcn)) hcore x hx

/-- C9: with a point distance vanishing on the diagonal within `eps` (the
source's Euclidean norm with a nonnegative radius), a point ends up
non-noise in `DBSCAN.fit` exactly when it lies in the `eps`-neighborhood of
some core point, i.e. of a point with at least `min_samples` neighbors;
raising `min_samples` only shrinks the set of core points, so the number of
non-noise samples can only decrease or stay the same. -/
theorem dbscan_min_samples_monotone (pdist : ℕ → ℕ → ℚ) (eps : ℚ) (n ms ms' : ℕ)
    (hself : ∀ j, pdist j j ≤ eps) (hms : ms ≤ ms') :
    dbNonNoise pdist eps ms' n ≤ dbNonNoise pdist eps ms n := by
  rw [dbNonNoise, dbNonNoise, ← List.countP_eq_length_filter,
    ← List.countP_eq_length_filter]
  apply List.countP_mono_left
  intro x _ hx
  rw [decide_eq_true_eq] at hx ⊢
  rw [dbscanLabels_characterization pdist eps ms' n hself x] at hx
  rw [dbscanLabels_characterization pdist eps ms n hself x]
  obtain ⟨c, hcn, hcore, hxc⟩ := hx
  exact ⟨c, hcn, le_trans hms hcore, hxc⟩

/-- Witness for `dbscan_min_samples_monotone`: the one-dimensional samples
`[0, 1, 5, 6]` with `eps = 3/2` and `min_samples` raised from 2 to 3. -/
theorem dbscan_min_samples_monotone_witness :
    (2 ≤ 3) ∧
    dbNonNoise
      (fun i j => ratAbs (([0, 1, 5, 6] : List ℚ).getD i 0 - ([0, 1, 5, 6] : List ℚ).getD j 0))
      (3 / 2) 3 4 ≤
    dbNonNoise
      (fun i j => ratAbs (([0, 1, 5, 6] : List ℚ).getD i 0 - ([0, 1, 5, 6] : List ℚ).getD j 0))
      (3 / 2) 2 4 :=
  ⟨by norm_num,
    dbscan_min_samples_monotone
      (fun i j => ratAbs (([0, 1, 5, 6] : List ℚ).getD i 0 - ([0, 1, 5, 6] : List ℚ).getD j 0))
      (3 / 2) 4 2 3
      (fun j => by show ratAbs (([0, 1, 5, 6] : List ℚ).getD j 0 - ([0, 1, 5, 6] : List ℚ).getD j 0) ≤ 3 / 2; rw [sub_self]; norm_num [ratAbs])
      (by norm_num)⟩
